import Mathlib

/-!
Verification of the Gobblet Gobblers solver core.

This file gives a shallow embedding of the game model, move engine,
encoding/symmetry layer, solver frame creation and BFS frontier enumerator
of the repository (files `gobblet/types.py`, `gobblet/state.py`,
`gobblet/moves.py`, `solver/fast_move.py`, `solver/encoding.py`,
`solver/minimax.py`, `solver/collect_positions.py`) and proves or refutes
the specification claims about them.

Conventions of the embedding:
* Python lists used as stacks (bottom at index 0, top at the end, mutated
  with `append`/`pop`) become Lean `List`s manipulated with `++ [x]`,
  `List.getLast?` and `List.dropLast`.
* The mutable board (a 3x3 grid of stacks) becomes a function
  `Pos → List Piece` updated with `Function.update`; the reserve dictionary
  becomes a function `Player → Size → Int` (Python integers may go
  negative, hence `Int`).
* Fallible operations (a `.pop()` on an empty stack, an `assert`
  violation, `Player(3)` raising `ValueError`) are modelled with `Option`.
* The `_position_history` field of `GameState` is omitted: the solver-side
  code embedded here (`fast_move`, `encoding`, `minimax`, BFS) never reads
  it, and `decode_state` documents that it is not restored.
-/

namespace Gobblet

/-- The two players (`gobblet/types.py`, class `Player`). -/
inductive Player where
  | one
  | two
deriving DecidableEq

/-- Numeric value of a player (`Player.ONE = 1`, `Player.TWO = 2`). -/
def Player.val : Player → Nat
  | .one => 1
  | .two => 2

/-- `Player.opponent` from `gobblet/types.py`. -/
def Player.opponent : Player → Player
  | .one => .two
  | .two => .one

instance : Fintype Player :=
  ⟨⟨{.one, .two}, by decide⟩, by intro x; cases x <;> decide⟩

/-- Piece sizes (`gobblet/types.py`, class `Size`). -/
inductive Size where
  | small
  | medium
  | large
deriving DecidableEq

/-- Numeric value of a size (`SMALL = 1`, `MEDIUM = 2`, `LARGE = 3`). -/
def Size.val : Size → Nat
  | .small => 1
  | .medium => 2
  | .large => 3

instance : Fintype Size :=
  ⟨⟨{.small, .medium, .large}, by decide⟩, by intro x; cases x <;> decide⟩

/-- `Size.can_gobble`: strict size comparison. -/
def Size.canGobble (a b : Size) : Bool := b.val < a.val

/-- A piece: owner and size (`gobblet/types.py`, class `Piece`). -/
structure Piece where
  player : Player
  size : Size
deriving DecidableEq

/-- `Piece.can_gobble`. -/
def Piece.canGobble (p q : Piece) : Bool := p.size.canGobble q.size

/-- Board coordinates: `(row, col)`, both in `0..2`. -/
abbrev Pos := Fin 3 × Fin 3

/-- `GameState.all_positions()`: row-major iteration over the grid. -/
def allPositions : List Pos :=
  [(0, 0), (0, 1), (0, 2), (1, 0), (1, 1), (1, 2), (2, 0), (2, 1), (2, 2)]

/-- The game state (`gobblet/state.py`, class `GameState`): the board as a
map from position to stack (bottom first), the reserve counts, and the
player to move.  The `_position_history` field is omitted (never consulted
by the solver-side code modelled here). -/
structure GameState where
  board : Pos → List Piece
  reserves : Player → Size → Int
  currentPlayer : Player

/-- `GameState.__init__`: empty board, two pieces of each size in each
player's reserve (`STARTING_PIECES`), player one to move. -/
def GameState.init : GameState :=
  { board := fun _ => []
    reserves := fun _ _ => 2
    currentPlayer := .one }

/-- `GameState.get_stack`. -/
def GameState.getStack (s : GameState) (p : Pos) : List Piece := s.board p

/-- `GameState.get_top`: the last (visible) element of the stack. -/
def GameState.getTop (s : GameState) (p : Pos) : Option Piece :=
  (s.board p).getLast?

/-- `GameState.has_reserve`. -/
def GameState.hasReserve (s : GameState) (player : Player) (size : Size) : Bool :=
  decide (0 < s.reserves player size)

/-- `GameState.WINNING_LINES`: rows, columns, diagonals in source order. -/
def winningLines : List (List Pos) :=
  [ [(0, 0), (0, 1), (0, 2)],
    [(1, 0), (1, 1), (1, 2)],
    [(2, 0), (2, 1), (2, 2)],
    [(0, 0), (1, 0), (2, 0)],
    [(0, 1), (1, 1), (2, 1)],
    [(0, 2), (1, 2), (2, 2)],
    [(0, 0), (1, 1), (2, 2)],
    [(0, 2), (1, 1), (2, 0)] ]

/-- One step of `GameState.check_winner`: the owner of a line if its three
visible pieces all belong to one player (the board's lines always have
exactly three cells, so the catch-all branch is unreachable). -/
def lineOwner (s : GameState) (line : List Pos) : Option Player :=
  match line.map s.getTop with
  | [some a, some b, some c] =>
      if a.player = b.player ∧ b.player = c.player then some a.player else none
  | _ => none

/-- `GameState.check_winner`: the owner of the first fully-owned line in
`WINNING_LINES` order, if any. -/
def GameState.checkWinner (s : GameState) : Option Player :=
  winningLines.findSome? (lineOwner s)

/-- `GameState.get_winning_lines`: all lines fully owned by `player`. -/
def GameState.getWinningLines (s : GameState) (player : Player) : List (List Pos) :=
  winningLines.filter fun line =>
    line.all fun q =>
      match s.getTop q with
      | some pc => pc.player == player
      | none => false

/-- A move (`gobblet/moves.py`, class `Move`): `fromPos = none` places the
piece of size `size` from the reserve, otherwise the top of `fromPos` is
slid to `toPos`. -/
structure Move where
  player : Player
  toPos : Pos
  fromPos : Option Pos := none
  size : Option Size := none
deriving DecidableEq

/-- `Move.is_from_reserve`. -/
def Move.isFromReserve (m : Move) : Bool := m.fromPos.isNone

/-- `can_place_at` from `gobblet/moves.py`: the gobble rule. -/
def canPlaceAt (piece : Piece) (pos : Pos) (s : GameState) : Bool :=
  match s.getTop pos with
  | none => true
  | some top => piece.canGobble top

/-- Iteration order `for size in Size`. -/
def sizes : List Size := [.small, .medium, .large]

/-- The board after lifting the top of `fromPos` (the simulated lift
`state_after_lift` of `generate_moves_with_reveal_check`, and the state
right after `.pop()` in `apply_move_in_place`). -/
def liftAt (s : GameState) (fromPos : Pos) : GameState :=
  { s with board := Function.update s.board fromPos (s.board fromPos).dropLast }

/-- The body of the `valid_targets` collection loop of
`generate_moves_with_reveal_check`: skip the origin, then add the cell if
its current top exists and is strictly gobbled by the lifted piece (the
Python `set` is modelled as an insertion-ordered duplicate-free list). -/
def targetStep (lifted : GameState) (top : Piece) (fromPos : Pos)
    (acc : List Pos) (pos : Pos) : List Pos :=
  if pos = fromPos then acc
  else
    match lifted.getTop pos with
    | none => acc
    | some targetTop =>
        if top.canGobble targetTop && !acc.contains pos then acc ++ [pos]
        else acc

/-- The `valid_targets` set of `generate_moves_with_reveal_check`: cells in
some exposed opponent-winning line, other than the origin, whose current
top the lifted piece strictly gobbles. -/
def validTargets (lifted : GameState) (top : Piece) (fromPos : Pos)
    (oppLines : List (List Pos)) : List Pos :=
  oppLines.foldl
    (fun acc line => line.foldl (targetStep lifted top fromPos) acc)
    []

/-- `generate_moves_with_reveal_check` from `gobblet/moves.py`. -/
def generateMovesWithRevealCheck (s : GameState) : List Move :=
  let player := s.currentPlayer
  let opponent := player.opponent
  let reserveMoves := sizes.flatMap fun size =>
    if s.hasReserve player size then
      allPositions.filterMap fun pos =>
        if canPlaceAt ⟨player, size⟩ pos s then
          some { player := player, toPos := pos, size := some size }
        else none
    else []
  let boardMoves := allPositions.flatMap fun fromPos =>
    match s.getTop fromPos with
    | none => []
    | some top =>
      if top.player = player then
        let lifted := liftAt s fromPos
        let oppLines := lifted.getWinningLines opponent
        if oppLines.isEmpty then
          allPositions.filterMap fun toPos =>
            if fromPos = toPos then none
            else if canPlaceAt top toPos s then
              some { player := player, toPos := toPos, fromPos := some fromPos }
            else none
        else
          (validTargets lifted top fromPos oppLines).map fun toPos =>
            { player := player, toPos := toPos, fromPos := some fromPos }
      else []
  reserveMoves ++ boardMoves

/-- `generate_moves` with the default `check_reveal=True` (the only form
the solver-side code uses). -/
def generateMoves (s : GameState) : List Move := generateMovesWithRevealCheck s

/-- `GameResult` from `gobblet/game.py`. -/
inductive GameResult where
  | ongoing
  | playerOneWins
  | playerTwoWins
  | draw
deriving DecidableEq

/-- `GameResult.winner`. -/
def GameResult.winner : Player → GameResult
  | .one => .playerOneWins
  | .two => .playerTwoWins

/-- `UndoInfo` from `solver/fast_move.py`. -/
structure UndoInfo where
  move : Move
  piece : Piece
  moveCompleted : Bool
  playerSwitched : Bool
deriving DecidableEq

/-- Pointwise update of the reserve map at one `(player, size)` key. -/
def updateReserve (r : Player → Size → Int) (pl : Player) (sz : Size) (v : Int) :
    Player → Size → Int :=
  fun pl' sz' => if pl' = pl ∧ sz' = sz then v else r pl' sz'

/-- The `can_save` loop of `apply_move_in_place`: some exposed
opponent-winning line contains the destination, whose current top the
lifted piece strictly gobbles. -/
def canSaveAt (s1 : GameState) (piece : Piece) (toPos : Pos)
    (oppLines : List (List Pos)) : Bool :=
  oppLines.any fun line =>
    line.contains toPos &&
      match s1.getTop toPos with
      | some target => piece.canGobble target
      | none => false

/-- Shared tail of `apply_move_in_place` after a completed placement:
check for a winner (no player switch on a terminal result), otherwise
switch the player. -/
def finishMove (s2 : GameState) (m : Move) (piece : Piece) :
    GameResult × UndoInfo × GameState :=
  match s2.checkWinner with
  | some w => (GameResult.winner w, ⟨m, piece, true, false⟩, s2)
  | none =>
      (GameResult.ongoing, ⟨m, piece, true, true⟩,
        { s2 with currentPlayer := s2.currentPlayer.opponent })

/-- `apply_move_in_place` from `solver/fast_move.py`.  Returns `none`
where the Python raises (`assert move.size is not None` on a reserve move
without a size, `.pop()` on an empty origin stack). -/
def applyMoveInPlace (s : GameState) (m : Move) :
    Option (GameResult × UndoInfo × GameState) :=
  let player := s.currentPlayer
  let opponent := player.opponent
  match m.fromPos with
  | none =>
      match m.size with
      | none => none
      | some size =>
          let piece : Piece := ⟨player, size⟩
          let s1 : GameState :=
            { s with
              reserves := updateReserve s.reserves player size (s.reserves player size - 1)
              board := Function.update s.board m.toPos (s.board m.toPos ++ [piece]) }
          some (finishMove s1 m piece)
  | some fromPos =>
      match (s.board fromPos).getLast? with
      | none => none
      | some piece =>
          let s1 := liftAt s fromPos
          let oppLines := s1.getWinningLines opponent
          if oppLines.isEmpty then
            some (finishMove
              { s1 with board := Function.update s1.board m.toPos (s1.board m.toPos ++ [piece]) }
              m piece)
          else
            if canSaveAt s1 piece m.toPos oppLines then
              some (finishMove
                { s1 with board := Function.update s1.board m.toPos (s1.board m.toPos ++ [piece]) }
                m piece)
            else
              some (GameResult.winner opponent, ⟨m, piece, false, false⟩, s1)

/-- `undo_move_in_place` from `solver/fast_move.py`.  Total: the source's
`assert` statements and the impossibility of popping an empty stack are
not modelled (`List.dropLast` of `[]` is `[]`); every use in this file
undoes an actual `applyMoveInPlace`. -/
def undoMoveInPlace (s : GameState) (undo : UndoInfo) : GameState :=
  let m := undo.move
  let piece := undo.piece
  let s1 :=
    if undo.playerSwitched then { s with currentPlayer := s.currentPlayer.opponent } else s
  if !undo.moveCompleted then
    match m.fromPos with
    | some fromPos =>
        { s1 with board := Function.update s1.board fromPos (s1.board fromPos ++ [piece]) }
    | none => s1
  else if m.isFromReserve then
    { s1 with
      board := Function.update s1.board m.toPos (s1.board m.toPos).dropLast
      reserves := updateReserve s1.reserves piece.player piece.size
        (s1.reserves piece.player piece.size + 1) }
  else
    match m.fromPos with
    | some fromPos =>
        let s2 := { s1 with board := Function.update s1.board m.toPos (s1.board m.toPos).dropLast }
        { s2 with board := Function.update s2.board fromPos (s2.board fromPos ++ [piece]) }
    | none => s1

/-! ## Encoding (`solver/encoding.py`) -/

/-- The three owner slots of a cell, as in the overwrite loop of
`encode_state` (`0` = empty, `1` = P1, `2` = P2; the last piece of each
size in the stack wins, as in the Python loop). -/
def cellOwnersStep (acc : Nat × Nat × Nat) (piece : Piece) : Nat × Nat × Nat :=
  match piece.size with
  | .small => (piece.player.val, acc.2.1, acc.2.2)
  | .medium => (acc.1, piece.player.val, acc.2.2)
  | .large => (acc.1, acc.2.1, piece.player.val)

def cellOwners (stack : List Piece) : Nat × Nat × Nat :=
  stack.foldl cellOwnersStep (0, 0, 0)

/-- The 6-bit cell code `small | medium << 2 | large << 4`. -/
def cellCode (stack : List Piece) : Nat :=
  (cellOwners stack).1 ||| ((cellOwners stack).2.1 <<< 2) ||| ((cellOwners stack).2.2 <<< 4)

/-- `encode_state`: nine 6-bit cells row-major from bit 0, the
side-to-move bit at bit 54. -/
def encodeState (s : GameState) : Nat :=
  (allPositions.foldl
    (fun (acc : Nat × Nat) q => (acc.1 ||| (cellCode (s.board q) <<< acc.2), acc.2 + 6))
    (0, 0)).1 ||| ((if s.currentPlayer = .one then (0 : Nat) else 1) <<< 54)

/-- Push a decoded piece onto a cell and decrement the matching reserve
(the two statements done per nonzero slot in `decode_state`). -/
def addPieceAt (s : GameState) (q : Pos) (pc : Piece) : GameState :=
  { s with
    board := Function.update s.board q (s.board q ++ [pc])
    reserves := updateReserve s.reserves pc.player pc.size (s.reserves pc.player pc.size - 1) }

/-- Decode one owner slot of one cell: slot value `3` makes `Player(3)`
raise `ValueError`, modelled as `none`. -/
def addSlot (q : Pos) (size : Size) (owner : Nat) (s : GameState) : Option GameState :=
  match owner with
  | 0 => some s
  | 1 => some (addPieceAt s q ⟨.one, size⟩)
  | 2 => some (addPieceAt s q ⟨.two, size⟩)
  | _ => none

/-- Decode the three slots of one cell, small first, then medium, then
large (maintaining the stack invariant, as the source comments note). -/
def decodeCellInto (s : GameState) (q : Pos) (cellBits : Nat) : Option GameState :=
  (addSlot q .small (cellBits &&& 3) s).bind fun s =>
    (addSlot q .medium ((cellBits >>> 2) &&& 3) s).bind fun s =>
      addSlot q .large ((cellBits >>> 4) &&& 3) s

/-- One iteration of the cell loop of `decode_state`: thread the state
being rebuilt and the current bit offset through one cell. -/
def decodeStep (encoded : Nat) (acc : Option (GameState × Nat)) (q : Pos) :
    Option (GameState × Nat) :=
  acc.bind fun sb =>
    (decodeCellInto sb.1 q ((encoded >>> sb.2) &&& 63)).map fun s' => (s', sb.2 + 6)

/-- `decode_state`: rebuild the board cell by cell starting from the
initial state (full reserves), then read the side to move from bit 54. -/
def decodeState (encoded : Nat) : Option GameState :=
  (allPositions.foldl (decodeStep encoded) (some (GameState.init, 0))).map fun sb =>
    { sb.1 with currentPlayer := if (encoded >>> 54) &&& 1 = 0 then .one else .two }

/-! ## Symmetry transforms (`solver/encoding.py`) -/

/-- The nine `(row, col)` pairs the transform loops iterate over. -/
def natCells : List (Nat × Nat) :=
  [(0, 0), (0, 1), (0, 2), (1, 0), (1, 1), (1, 2), (2, 0), (2, 1), (2, 2)]

/-- `_rotate_90`: move every 6-bit cell field from `(r, c)` to
`(c, 2 - r)`, preserving the player bit.  Bits 55 and above are dropped. -/
def rotate90 (encoded : Nat) : Nat :=
  let playerBit := (encoded >>> 54) &&& 1
  let newEncoded := natCells.foldl
    (fun acc rc =>
      let oldCell := (encoded >>> ((rc.1 * 3 + rc.2) * 6)) &&& 63
      acc ||| (oldCell <<< ((rc.2 * 3 + (2 - rc.1)) * 6)))
    0
  newEncoded ||| (playerBit <<< 54)

/-- `_reflect_horizontal`: move every cell field from `(r, c)` to
`(r, 2 - c)`, preserving the player bit. -/
def reflectHorizontal (encoded : Nat) : Nat :=
  let playerBit := (encoded >>> 54) &&& 1
  let newEncoded := natCells.foldl
    (fun acc rc =>
      let oldCell := (encoded >>> ((rc.1 * 3 + rc.2) * 6)) &&& 63
      acc ||| (oldCell <<< ((rc.1 * 3 + (2 - rc.2)) * 6)))
    0
  newEncoded ||| (playerBit <<< 54)

/-- `get_all_symmetries`: the loop `append current; append reflect;
current := rotate` run four times, unrolled. -/
def getAllSymmetries (encoded : Nat) : List Nat :=
  let c1 := rotate90 encoded
  let c2 := rotate90 c1
  let c3 := rotate90 c2
  [encoded, reflectHorizontal encoded, c1, reflectHorizontal c1,
    c2, reflectHorizontal c2, c3, reflectHorizontal c3]

/-- `canonicalize`: the numeric minimum of the eight symmetries (Python
`min` over a nonempty list; the empty case is unreachable). -/
def canonicalize (encoded : Nat) : Nat :=
  match getAllSymmetries encoded with
  | [] => 0
  | a :: rest => rest.foldl Nat.min a

/-- `canonicalize_state`. -/
def canonicalizeState (s : GameState) : Nat := canonicalize (encodeState s)

/-! ## Solver frame creation (`solver/minimax.py`) -/

/-- Solver outcomes (`Outcome` IntEnum: `WIN_P2 = -1`, `DRAW = 0`,
`WIN_P1 = 1`). -/
inductive Outcome where
  | winP2
  | draw
  | winP1
deriving DecidableEq

/-- The transposition table `dict[int, Outcome]`, as an association list
keyed by canonical encodings. -/
abbrev Table := List (Nat × Outcome)

/-- Dictionary lookup `table.get(k)` / `table[k]`. -/
def lookupTable (t : Table) (k : Nat) : Option Outcome :=
  (t.find? fun e => e.1 == k).map (·.2)

/-- Dictionary write `table[k] = v` (overwrite if present, append
otherwise). -/
def storeTable (t : Table) (k : Nat) (v : Outcome) : Table :=
  if (t.find? fun e => e.1 == k).isSome then
    t.map fun e => if e.1 == k then (k, v) else e
  else t ++ [(k, v)]

/-- `_game_result_to_outcome` (raises on an ongoing result, modelled as
`none`). -/
def gameResultToOutcome : GameResult → Option Outcome
  | .playerOneWins => some .winP1
  | .playerTwoWins => some .winP2
  | .draw => some .draw
  | .ongoing => none

/-- One entry of a frame's `moves` list in `_create_frame_fast`:
`(move, child_canonical, game_result)`. -/
structure FrameChild where
  move : Move
  childCanonical : Nat
  result : GameResult
deriving DecidableEq

/-- The data of a freshly created `StackFrame` (the shared mutable state
reference, cursor `0` and empty outcome list are implicit). -/
structure Frame where
  canonical : Nat
  moves : List FrameChild
deriving DecidableEq

/-- `move_priority` inside `_create_frame_fast`. -/
def movePriority (table : Table) (best : Outcome) (item : FrameChild) : Nat :=
  match lookupTable table item.childCanonical with
  | some outcome => if outcome = best then 0 else if outcome = .draw then 1 else 2
  | none => 1

/-- `_create_frame_fast` from `solver/minimax.py`.  For each generated
move it applies the move in place, canonicalizes the child, stores
terminal children in the table immediately, and undoes the move; with no
moves it stores the zugzwang loss and returns no frame, otherwise it
returns the frame with its children sorted by `move_priority`.  The
result carries `(frame?, final state, table, ordered list of table
writes)`; `none` means a Python exception. -/
def createFrameFast (s : GameState) (canonical : Nat) (table : Table) :
    Option (Option Frame × GameState × Table × List (Nat × Outcome)) :=
  let step := fun (acc : Option (GameState × Table × List (Nat × Outcome) × List FrameChild))
      (m : Move) =>
    acc.bind fun a =>
      match a with
      | (st, tbl, writes, children) =>
        (applyMoveInPlace st m).map fun r =>
          match r with
          | (result, undo, st') =>
            let childCanonical := canonicalize (encodeState st')
            let tw : Table × List (Nat × Outcome) :=
              match gameResultToOutcome result with
              | some childOutcome =>
                  (storeTable tbl childCanonical childOutcome,
                    writes ++ [(childCanonical, childOutcome)])
              | none => (tbl, writes)
            (undoMoveInPlace st' undo, tw.1, tw.2,
              children ++ [⟨m, childCanonical, result⟩])
  ((generateMoves s).foldl step (some (s, table, [], []))).map fun a =>
    match a with
    | (st, tbl, writes, children) =>
      if children.isEmpty then
        let outcome : Outcome := if st.currentPlayer = .one then .winP2 else .winP1
        (none, st, storeTable tbl canonical outcome, writes ++ [(canonical, outcome)])
      else
        let best : Outcome := if st.currentPlayer = .one then .winP1 else .winP2
        let sorted := children.mergeSort fun a b =>
          Nat.ble (movePriority tbl best a) (movePriority tbl best b)
        (some ⟨canonical, sorted⟩, st, tbl, writes)

/-! ## BFS frontier enumerator (`solver/collect_positions.py`) -/

/-- One move of the per-node loop of `_enumerate_with_encoding_queue`:
apply the move in place, classify an ongoing child as already seen, solved
(queued) or unsolved (frontier), then undo. -/
def enumerateStep (table : Table) (depth : Nat)
    (acc : Option (GameState × List Nat × List (Nat × Nat) × List (Nat × Nat)))
    (m : Move) : Option (GameState × List Nat × List (Nat × Nat) × List (Nat × Nat)) :=
  acc.bind fun a =>
    match a with
    | (st, vis, uns, newQ) =>
      (applyMoveInPlace st m).map fun r =>
        match r with
        | (result, undo, st') =>
          let restored := undoMoveInPlace st' undo
          if result = .ongoing then
            let child := canonicalize (encodeState st')
            if vis.contains child then (restored, vis, uns, newQ)
            else if (lookupTable table child).isSome then
              (restored, vis ++ [child], uns, newQ ++ [(child, depth + 1)])
            else (restored, vis ++ [child], uns ++ [(child, depth + 1)], newQ)
          else (restored, vis, uns, newQ)

/-- Processing of one dequeued `(encoded, depth)` node in
`_enumerate_with_encoding_queue`: decode, then fold `enumerateStep` over
the generated moves.  Returns `(visited, unsolved, new queue entries)`;
`none` models a Python exception. -/
def enumerateNode (table : Table) (visited : List Nat) (unsolved : List (Nat × Nat))
    (encoded depth : Nat) :
    Option (List Nat × List (Nat × Nat) × List (Nat × Nat)) :=
  match decodeState encoded with
  | none => none
  | some s0 =>
    ((generateMoves s0).foldl (enumerateStep table depth)
        (some (s0, visited, unsolved, []))).map fun a =>
      match a with
      | (_, vis, uns, newQ) => (vis, uns, newQ)

/-- The BFS loop of `_enumerate_with_encoding_queue` (time, checkpoint and
stop-flag handling omitted): dequeue from the front, process, append new
entries at the back.  `fuel` bounds the number of iterations; running out
of fuel with a nonempty queue yields `none`, so a `some` result is a
completed enumeration. -/
def enumerateLoop (table : Table) :
    Nat → List (Nat × Nat) → List Nat → List (Nat × Nat) → Option (List (Nat × Nat))
  | _, [], _, unsolved => some unsolved
  | 0, _ :: _, _, _ => none
  | fuel + 1, (encoded, depth) :: rest, visited, unsolved =>
    (enumerateNode table visited unsolved encoded depth).bind fun a =>
      match a with
      | (vis, uns, newQ) => enumerateLoop table fuel (rest ++ newQ) vis uns

/-- `enumerate_all_unsolved_with_depth` (with the encoding queue): BFS
from the fixed initial position over positions present in `table`,
returning the map `canonical ↦ recorded depth` of unsolved frontier
positions. -/
def enumerateAllUnsolvedWithDepth (table : Table) (fuel : Nat) :
    Option (List (Nat × Nat)) :=
  let initialCanonical := canonicalize (encodeState GameState.init)
  enumerateLoop table fuel [(initialCanonical, 0)] [initialCanonical] []

/-! ## Specification-side predicates and auxiliary definitions -/

/-- The per-cell condition of the reveal rule as the code implements it
(used by `targetStep` in move generation and by `can_save` in
`apply_move_in_place`): the cell holds a piece that the lifted piece
strictly gobbles.  Origin exclusion is stated separately. -/
def saveCond (lifted : GameState) (top : Piece) (pos : Pos) : Prop :=
  ∃ tt, lifted.getTop pos = some tt ∧ top.canGobble tt = true

instance (lifted : GameState) (top : Piece) (pos : Pos) :
    Decidable (saveCond lifted top pos) := by
  unfold saveCond
  cases lifted.getTop pos <;> simp <;> infer_instance

/-- Number of on-board pieces of one `(player, size)` kind. -/
def onBoardCount (s : GameState) (pl : Player) (sz : Size) : Nat :=
  (allPositions.map fun q =>
    ((s.board q).filter fun pc => pc == (⟨pl, sz⟩ : Piece)).length).sum

/-- Invariant 2/3 of the spec for one cell: sizes strictly increase from
bottom to top (this also forces at most one piece per size and stack
length at most 3). -/
def StackAscending (stack : List Piece) : Prop :=
  List.Chain' (fun a b : Piece => a.size.val < b.size.val) stack

/-- The position invariants of spec §3 needed for the encoding roundtrip:
ascending stacks and reserve counts determined by the board. -/
def StateInvariants (s : GameState) : Prop :=
  (∀ q : Pos, StackAscending (s.board q)) ∧
  (∀ (pl : Player) (sz : Size), s.reserves pl sz = 2 - (onBoardCount s pl sz : Int))

/-- The 6-bit cell field `i` of an encoded value. -/
def cellAt (e : Nat) (i : Nat) : Nat := (e >>> (6 * i)) &&& 63

/-- The side-to-move bit of an encoded value. -/
def bit54 (e : Nat) : Nat := (e >>> 54) &&& 1

/-- Base-64 digit packing: `packList [c₀, …, cₙ] = Σ cᵢ · 64ⁱ`. -/
def packList (cs : List Nat) : Nat := cs.foldr (fun c acc => c + 64 * acc) 0

/-- One of the three 2-bit owner slots of a cell field holds the value
`3`, which makes `Player(3)` in `decode_state` raise `ValueError`. -/
def slotBad (bits : Nat) : Prop :=
  bits &&& 3 = 3 ∨ (bits >>> 2) &&& 3 = 3 ∨ (bits >>> 4) &&& 3 = 3

instance (bits : Nat) : Decidable (slotBad bits) := by
  unfold slotBad; infer_instance

/-- One of the encoded owner slots of some cell is `3`, which makes
`Player(3)` in `decode_state` raise `ValueError`. -/
def HasInvalidSlot (e : Nat) : Prop :=
  ∃ i : Fin 9, slotBad (cellAt e i)

instance (e : Nat) : Decidable (HasInvalidSlot e) := by
  unfold HasInvalidSlot; infer_instance

/-- The 90° rotation acting on positions, `(r, c) ↦ (c, 2 − r)` (spec
§4.1); pre-composition with its inverse rotates the board. -/
def rotateState (s : GameState) : GameState :=
  { s with board := fun q => s.board (2 - q.2, q.1) }

/-- The horizontal reflection acting on positions, `(r, c) ↦ (r, 2 − c)`. -/
def reflectState (s : GameState) : GameState :=
  { s with board := fun q => s.board (q.1, 2 - q.2) }

/-- Membership in the 8-element symmetry group generated by the 90°
rotation and the horizontal reflection, acting on positions (spec §4.1:
`D₄`). -/
inductive IsD4 : (GameState → GameState) → Prop where
  | id : IsD4 id
  | rot {f : GameState → GameState} : IsD4 f → IsD4 (rotateState ∘ f)
  | refl {f : GameState → GameState} : IsD4 f → IsD4 (reflectState ∘ f)

/-- One move step between canonical encodings, exactly as the BFS
enumerator takes it: decode the canonical, play one generated move with an
ongoing result, canonicalize the child. -/
def canonicalStep (e e' : Nat) : Prop :=
  ∃ s m u s', decodeState e = some s ∧ m ∈ generateMoves s ∧
    applyMoveInPlace s m = some (GameResult.ongoing, u, s') ∧
    canonicalize (encodeState s') = e'

/-- A move path of length `n` between canonical encodings (the claim's
"number of moves from the root"). -/
def PathN : Nat → Nat → Nat → Prop
  | 0, e, c => e = c
  | n + 1, e, c => ∃ mid, canonicalStep e mid ∧ PathN n mid c

/-- A move path of length `n` whose strictly interior positions are all
present in the transposition table — the paths the BFS enumerator can
actually walk. -/
def SolvedPathN (table : Table) : Nat → Nat → Nat → Prop
  | 0, e, c => e = c
  | n + 1, e, c => ∃ mid, canonicalStep e mid ∧
      (n = 0 ∨ (lookupTable table mid).isSome = true) ∧ SolvedPathN table n mid c

/-- The working invariant of the BFS loop: the queue splits into a block
`A` at the current level `D` and a block `B` at level `D + 1`; queue
entries carry minimal solved-path depths and are visited; processed nodes
(`P`, a history variable) have all their successors visited; every visited
traversable key is processed or queued; every traversable key within
distance `D` is processed or queued; and the frontier rows collected so
far are unsolved keys at their minimal solved-path depth. -/
def LoopInv (table : Table) (R : Nat) (A B : List (Nat × Nat)) (D : Nat)
    (visited : List Nat) (uns : List (Nat × Nat)) (P : List Nat) : Prop :=
  (∀ pr ∈ A, pr.2 = D) ∧
  (∀ pr ∈ B, pr.2 = D + 1) ∧
  R ∈ visited ∧
  (∀ pr ∈ A ++ B, SolvedPathN table pr.2 R pr.1 ∧
    (pr.2 = 0 ∨ (lookupTable table pr.1).isSome = true) ∧ pr.1 ∈ visited) ∧
  (∀ pr ∈ A ++ B, ∀ n, SolvedPathN table n R pr.1 → pr.2 ≤ n) ∧
  (∀ p ∈ P, ∀ y, canonicalStep p y → y ∈ visited) ∧
  (∀ x ∈ visited, (x = R ∨ (lookupTable table x).isSome = true) →
    x ∈ P ∨ ∃ dx, (x, dx) ∈ A ++ B) ∧
  (∀ x, (x = R ∨ (lookupTable table x).isSome = true) → ∀ m, SolvedPathN table m R x →
    m ≤ D → x ∈ P ∨ ∃ dx, (x, dx) ∈ A ++ B) ∧
  (∀ pr ∈ uns, SolvedPathN table pr.2 R pr.1 ∧ lookupTable table pr.1 = none ∧
    ∀ n, SolvedPathN table n R pr.1 → pr.2 ≤ n)

/-- What the claim asserts of the frontier map: every row holds an
unsolved key at the least length of any solved-interior path from the
root. -/
def GoodFrontier (table : Table) (R : Nat) (front : List (Nat × Nat)) : Prop :=
  ∀ pr ∈ front, SolvedPathN table pr.2 R pr.1 ∧ lookupTable table pr.1 = none ∧
    ∀ n, SolvedPathN table n R pr.1 → pr.2 ≤ n

/-- The frontier the enumerator produces from an empty table with fuel 1:
the nine canonical children of the initial position, at depth 1. -/
def bfsEmptyFrontier : List (Nat × Nat) :=
  [(18014398509481985, 1), (18014398509482048, 1), (18014398526259200, 1),
    (18014398509481988, 1), (18014398509482240, 1), (18014398576590848, 1),
    (18014398509482000, 1), (18014398509483008, 1), (18014398777917440, 1)]

/-! ## Concrete positions used as witnesses and counterexamples -/

/-- Build a board function from an association list of cells (cells not
listed are empty). -/
def mkBoard (l : List (Pos × List Piece)) : Pos → List Piece := fun q =>
  (((l.find? fun e => e.1 == q).map (·.2)).getD [])

/-- A reachable position with player two to move: one column of large
P1 pieces protects column 1, the stack at `(0, 1)` hides a P1 small under
the P2 large, and the mirror-symmetric wings make the two legal saving
slides of the P2 large land in symmetric cells.  Lifting the P2 large at
`(0, 1)` exposes two P1 winning lines at once (row 0 and column 1). -/
def R1 : GameState :=
  { board := mkBoard [
      ((0, 0), [⟨.one, .medium⟩]),
      ((0, 1), [⟨.one, .small⟩, ⟨.two, .large⟩]),
      ((0, 2), [⟨.one, .medium⟩]),
      ((1, 0), [⟨.two, .small⟩]),
      ((1, 1), [⟨.one, .large⟩]),
      ((1, 2), [⟨.two, .small⟩]),
      ((2, 0), [⟨.two, .medium⟩]),
      ((2, 1), [⟨.one, .large⟩]),
      ((2, 2), [⟨.two, .medium⟩])]
    reserves := fun pl sz =>
      match pl, sz with
      | .one, .small => 1
      | .two, .large => 1
      | _, _ => 0
    currentPlayer := .two }

/-- The slide of the P2 large from `(0, 1)` onto `(0, 0)` in `R1`. -/
def slideA : Move := { player := .two, toPos := (0, 0), fromPos := some (0, 1) }

/-- The mirror slide of the P2 large from `(0, 1)` onto `(0, 2)` in `R1`. -/
def slideB : Move := { player := .two, toPos := (0, 2), fromPos := some (0, 1) }

/-- A state with no legal moves: empty board and empty reserves (such a
`GameState` is constructible in the source by mutating `_reserves`). -/
def zugzwangState : GameState :=
  { board := fun _ => []
    reserves := fun _ _ => 0
    currentPlayer := .one }

/-- BFS counterexample: position after P1 places a small at `(0, 0)`. -/
def stateB : GameState :=
  { board := mkBoard [((0, 0), [⟨.one, .small⟩])]
    reserves := fun pl sz =>
      match pl, sz with
      | .one, .small => 1
      | _, _ => 2
    currentPlayer := .two }

/-- BFS counterexample: `stateB` after P2 places a small at `(2, 2)`. -/
def stateD : GameState :=
  { board := mkBoard [((0, 0), [⟨.one, .small⟩]), ((2, 2), [⟨.two, .small⟩])]
    reserves := fun pl sz =>
      match pl, sz with
      | .one, .small => 1
      | .two, .small => 1
      | _, _ => 2
    currentPlayer := .one }

/-- BFS counterexample: `stateD` after P1 slides its small from `(0, 0)`
to `(1, 1)`. -/
def stateE : GameState :=
  { board := mkBoard [((1, 1), [⟨.one, .small⟩]), ((2, 2), [⟨.two, .small⟩])]
    reserves := fun pl sz =>
      match pl, sz with
      | .one, .small => 1
      | .two, .small => 1
      | _, _ => 2
    currentPlayer := .two }

/-- BFS counterexample: the frontier position, P1 small at `(1, 1)` and
P2 small at `(0, 1)`, P1 to move.  It is two placements away from the
initial position, but the only table-solved route to it
(`stateB → stateD → stateE → here`) takes four moves. -/
def stateC : GameState :=
  { board := mkBoard [((1, 1), [⟨.one, .small⟩]), ((0, 1), [⟨.two, .small⟩])]
    reserves := fun pl sz =>
      match pl, sz with
      | .one, .small => 1
      | .two, .small => 1
      | _, _ => 2
    currentPlayer := .one }

/-- The partially populated transposition table for the BFS
counterexample: exactly the three positions of the long route are solved. -/
def bfsTable : Table :=
  [(canonicalizeState stateB, .draw), (canonicalizeState stateD, .draw),
    (canonicalizeState stateE, .draw)]

/-- The frontier map the BFS enumerator produces on `bfsTable` (61
entries, checked by evaluation in `bfs_depth_not_minimal`). -/
def bfsFrontier : List (Nat × Nat) :=
  [(18014398509482048, 1), (18014398526259200, 1), (18014398509481988, 1),
    (18014398509482240, 1), (18014398576590848, 1), (18014398509482000, 1),
    (18014398509483008, 1), (18014398777917440, 1), (129, 2), (4098, 2),
    (33554433, 2), (528384, 2), (9, 2), (513, 2), (4104, 2), (134217729, 2),
    (2101248, 2), (68719509504, 2), (33, 2), (2049, 2), (4128, 2),
    (536870913, 2), (8392704, 2), (68719607808, 2), (18014467228966913, 3),
    (18014467228966976, 3), (18014467229229056, 3), (18014467245744128, 3),
    (18014467228966916, 3), (18014467228967168, 3), (18014467228983296, 3),
    (18014467230015488, 3), (18014467296075776, 3), (18014535948455936, 3),
    (18014467228966928, 3), (18014467228967936, 3), (18014467229032448, 3),
    (18014467233161216, 3), (18014467497402368, 3), (18014535948505088, 3),
    (18014398509486082, 3), (18014398509482050, 3), (18014398509752320, 3),
    (16777346, 4), (16785410, 4), (17309696, 4), (137455738880, 4),
    (16777226, 4), (16777730, 4), (16785416, 4), (150994946, 4),
    (18882560, 4), (137455763456, 4), (16777250, 4), (16779266, 4),
    (16785440, 4), (553648130, 4), (25174016, 4), (137455861760, 4),
    (16777344, 4), (16777218, 4)]

/-- Source index of each cell of a rotated encoding: cell `j` of
`rotate90 e` is cell `rotIdx[j]` of `e` (the inverse of
`(r, c) ↦ (c, 2 − r)` on row-major indices). -/
def rotIdx : List Nat := [6, 3, 0, 7, 4, 1, 8, 5, 2]

/-- Source index of each cell of a reflected encoding: cell `j` of
`reflectHorizontal e` is cell `reflIdx[j]` of `e`. -/
def reflIdx : List Nat := [2, 1, 0, 5, 4, 3, 8, 7, 6]

/-- The state `decode_state` builds: starting from `s`, walk the cells of
`qs` and push each recorded stack of `p` onto the board. -/
def rebuild (p s : GameState) (qs : List Pos) : GameState :=
  qs.foldl (fun t q => (p.board q).foldl (fun t' pc => addPieceAt t' q pc) t) s

instance (s : GameState) : Decidable (StateInvariants s) := by
  unfold StateInvariants StackAscending
  infer_instance

instance : DecidableEq GameState := fun s t =>
  if h : (∀ q : Pos, s.board q = t.board q) ∧
      (∀ (pl : Player) (sz : Size), s.reserves pl sz = t.reserves pl sz) ∧
      s.currentPlayer = t.currentPlayer then
    Decidable.isTrue (by
      obtain ⟨h1, h2, h3⟩ := h
      have hb : s.board = t.board := funext h1
      have hr : s.reserves = t.reserves := funext fun pl => funext (h2 pl)
      cases s
      cases t
      simp_all)
  else
    Decidable.isFalse (by
      intro he
      subst he
      exact h ⟨fun _ => rfl, fun _ _ => rfl, rfl⟩)

/-- First move of the short route in the BFS-depth counterexample: player
one places a small piece on the centre. -/
def bfsMoveA : Move := { player := .one, toPos := (1, 1), size := some .small }

/-- Second move of the short route: player two places a small piece on the
north edge, reaching `stateC`. -/
def bfsMoveB : Move := { player := .two, toPos := (0, 1), size := some .small }

/-- The position after `bfsMoveA`: a lone small player-one piece on the
centre, player two to move. -/
def bfsMid : GameState :=
  { board := mkBoard [((1, 1), [⟨.one, .small⟩])]
    reserves := fun pl sz =>
      match pl, sz with
      | .one, .small => 1
      | _, _ => 2
    currentPlayer := .two }

/-! ## Basic lemmas -/

theorem Player.opponent_opponent (p : Player) : p.opponent.opponent = p := by
  cases p <;> rfl

theorem GameState.eq_of {s t : GameState} (hb : s.board = t.board)
    (hr : s.reserves = t.reserves) (hc : s.currentPlayer = t.currentPlayer) :
    s = t := by
  cases s; cases t; simp_all

theorem mem_allPositions (q : Pos) : q ∈ allPositions := by
  rcases q with ⟨r, c⟩
  fin_cases r <;> fin_cases c <;> decide

theorem updateReserve_self (r : Player → Size → Int) (pl : Player) (sz : Size) (v : Int) :
    updateReserve r pl sz v pl sz = v := by
  simp [updateReserve]

theorem updateReserve_updateReserve (r : Player → Size → Int) (pl : Player) (sz : Size)
    (v w : Int) : updateReserve (updateReserve r pl sz v) pl sz w = updateReserve r pl sz w := by
  funext pl' sz'
  unfold updateReserve
  split <;> rfl

theorem updateReserve_eq_self (r : Player → Size → Int) (pl : Player) (sz : Size) :
    updateReserve r pl sz (r pl sz) = r := by
  funext pl' sz'
  unfold updateReserve
  split
  · rename_i h
    rw [h.1, h.2]
  · rfl

/-! ## Membership in generated move lists -/

theorem mem_targetStep {lifted : GameState} {top : Piece} {f : Pos} {acc : List Pos}
    {pos x : Pos} :
    x ∈ targetStep lifted top f acc pos ↔
      x ∈ acc ∨ (x = pos ∧ pos ≠ f ∧ saveCond lifted top pos) := by
  unfold targetStep
  by_cases hpf : pos = f
  · rw [if_pos hpf]
    simp [hpf]
  · rw [if_neg hpf]
    rcases hgt : lifted.getTop pos with _ | tt
    · simp [saveCond, hgt]
    · by_cases hmem : pos ∈ acc
      · have hc : acc.contains pos = true := by
          simpa [List.contains] using List.elem_iff.mpr hmem
        simp only [hc, Bool.not_true, Bool.and_false, Bool.false_eq_true, if_false]
        constructor
        · exact Or.inl
        · rintro (h | ⟨rfl, -, -⟩)
          · exact h
          · exact hmem
      · have hc : acc.contains pos = false := by
          rw [Bool.eq_false_iff]
          intro h
          exact hmem (List.elem_iff.mp (by simpa [List.contains] using h))
        by_cases hg : top.canGobble tt = true
        · simp only [hg, hc, Bool.not_false, Bool.and_true, if_true, List.mem_append,
            List.mem_singleton]
          constructor
          · rintro (h | rfl)
            · exact Or.inl h
            · exact Or.inr ⟨rfl, hpf, tt, hgt, hg⟩
          · rintro (h | ⟨rfl, -, -⟩)
            · exact Or.inl h
            · exact Or.inr rfl
        · simp only [Bool.eq_false_iff.mpr hg, Bool.false_and, Bool.false_eq_true, if_false]
          constructor
          · exact Or.inl
          · rintro (h | ⟨rfl, -, tt', hgt', hg'⟩)
            · exact h
            · rw [hgt] at hgt'
              cases hgt'
              exact absurd hg' hg

theorem mem_foldl_targetStep {lifted : GameState} {top : Piece} {f : Pos}
    (line : List Pos) (acc : List Pos) (x : Pos) :
    x ∈ line.foldl (targetStep lifted top f) acc ↔
      x ∈ acc ∨ (x ≠ f ∧ saveCond lifted top x ∧ x ∈ line) := by
  induction line generalizing acc with
  | nil => simp
  | cons p line ih =>
    rw [List.foldl_cons, ih, mem_targetStep]
    constructor
    · rintro ((h | ⟨rfl, hpf, hsc⟩) | ⟨hxf, hsc, hmem⟩)
      · exact Or.inl h
      · exact Or.inr ⟨hpf, hsc, List.mem_cons_self _ _⟩
      · exact Or.inr ⟨hxf, hsc, List.mem_cons_of_mem _ hmem⟩
    · rintro (h | ⟨hxf, hsc, hmem⟩)
      · exact Or.inl (Or.inl h)
      · rcases List.mem_cons.mp hmem with rfl | hmem
        · exact Or.inl (Or.inr ⟨rfl, hxf, hsc⟩)
        · exact Or.inr ⟨hxf, hsc, hmem⟩

theorem mem_validTargets {lifted : GameState} {top : Piece} {f : Pos}
    (oppLines : List (List Pos)) (x : Pos) :
    x ∈ validTargets lifted top f oppLines ↔
      x ≠ f ∧ saveCond lifted top x ∧ ∃ line ∈ oppLines, x ∈ line := by
  unfold validTargets
  suffices h : ∀ acc : List Pos,
      x ∈ oppLines.foldl (fun acc line => line.foldl (targetStep lifted top f) acc) acc ↔
        x ∈ acc ∨ (x ≠ f ∧ saveCond lifted top x ∧ ∃ line ∈ oppLines, x ∈ line) by
    simpa using h []
  intro acc
  induction oppLines generalizing acc with
  | nil => simp
  | cons l ls ih =>
    rw [List.foldl_cons, ih, mem_foldl_targetStep]
    constructor
    · rintro ((h | ⟨hxf, hsc, hmem⟩) | ⟨hxf, hsc, line, hline, hmem⟩)
      · exact Or.inl h
      · exact Or.inr ⟨hxf, hsc, l, List.mem_cons_self _ _, hmem⟩
      · exact Or.inr ⟨hxf, hsc, line, List.mem_cons_of_mem _ hline, hmem⟩
    · rintro (h | ⟨hxf, hsc, line, hline, hmem⟩)
      · exact Or.inl (Or.inl h)
      · rcases List.mem_cons.mp hline with rfl | hline
        · exact Or.inl (Or.inr ⟨hxf, hsc, hmem⟩)
        · exact Or.inr ⟨hxf, hsc, line, hline, hmem⟩

/-- Shape facts about generated moves: a reserve move carries a size, and
a slide originates at a mover-owned top and never targets its own origin. -/
theorem mem_generateMoves_cases {s : GameState} {m : Move} (hm : m ∈ generateMoves s) :
    (m.fromPos = none ∧ m.player = s.currentPlayer ∧ ∃ sz, m.size = some sz) ∨
      (∃ f top, m.fromPos = some f ∧ (s.board f).getLast? = some top ∧
        top.player = s.currentPlayer ∧ m.toPos ≠ f) := by
  simp only [generateMoves, generateMovesWithRevealCheck] at hm
  rw [List.mem_append] at hm
  rcases hm with hm | hm
  · left
    rw [List.mem_flatMap] at hm
    obtain ⟨sz, -, hm⟩ := hm
    split at hm
    · rw [List.mem_filterMap] at hm
      obtain ⟨pos, -, hpos⟩ := hm
      split at hpos
      · cases hpos
        exact ⟨rfl, rfl, sz, rfl⟩
      · cases hpos
    · simp at hm
  · right
    rw [List.mem_flatMap] at hm
    obtain ⟨f, -, hm⟩ := hm
    split at hm
    next => simp at hm
    next top hgt =>
      split at hm
      next hpl =>
        split at hm
        next =>
          rw [List.mem_filterMap] at hm
          obtain ⟨pos, -, hpos⟩ := hm
          split at hpos
          next => exact Option.noConfusion hpos
          next hne =>
            split at hpos
            next =>
              cases hpos
              exact ⟨f, top, rfl, hgt, hpl, fun h => hne h.symm⟩
            next => exact Option.noConfusion hpos
        next =>
          rw [List.mem_map] at hm
          obtain ⟨pos, hposmem, heq⟩ := hm
          cases heq
          exact ⟨f, top, rfl, hgt, hpl, ((mem_validTargets _ _).mp hposmem).1⟩
      next => simp at hm

/-! ## Apply/undo roundtrip -/

theorem applyMove_reserve (s : GameState) (m : Move) (sz : Size)
    (hf : m.fromPos = none) (hs : m.size = some sz) :
    applyMoveInPlace s m =
      some (finishMove
        { s with
          reserves := updateReserve s.reserves s.currentPlayer sz
            (s.reserves s.currentPlayer sz - 1)
          board := Function.update s.board m.toPos
            (s.board m.toPos ++ [⟨s.currentPlayer, sz⟩]) }
        m ⟨s.currentPlayer, sz⟩) := by
  simp [applyMoveInPlace, hf, hs]

/-- Undoing either `finishMove` result is undoing a completed, unswitched
move on the pre-finish state (the player switch cancels). -/
theorem undo_finishMove (s2 : GameState) (m : Move) (piece : Piece) :
    undoMoveInPlace (finishMove s2 m piece).2.2 (finishMove s2 m piece).2.1 =
      undoMoveInPlace s2 ⟨m, piece, true, false⟩ := by
  rcases s2 with ⟨b, r, cp⟩
  unfold finishMove
  cases h : GameState.checkWinner ⟨b, r, cp⟩ <;>
    simp [h, undoMoveInPlace, Player.opponent_opponent]

theorem undo_reserve_completed (s : GameState) (m : Move) (sz : Size)
    (hf : m.fromPos = none) :
    undoMoveInPlace
      { s with
        reserves := updateReserve s.reserves s.currentPlayer sz
          (s.reserves s.currentPlayer sz - 1)
        board := Function.update s.board m.toPos
          (s.board m.toPos ++ [⟨s.currentPlayer, sz⟩]) }
      ⟨m, ⟨s.currentPlayer, sz⟩, true, false⟩ = s := by
  have hres : m.isFromReserve = true := by simp [Move.isFromReserve, hf]
  unfold undoMoveInPlace
  simp only [hres, Bool.not_true, Bool.false_eq_true, if_false, if_true]
  apply GameState.eq_of
  · simp only [Function.update_same, List.dropLast_concat, Function.update_idem,
      Function.update_eq_self]
  · simp only [updateReserve_self, Int.sub_add_cancel, updateReserve_updateReserve,
      updateReserve_eq_self]
  · rfl

theorem undo_slide_incomplete (s : GameState) (m : Move) (f : Pos) (piece : Piece)
    (hf : m.fromPos = some f) (hp : (s.board f).getLast? = some piece) :
    undoMoveInPlace (liftAt s f) ⟨m, piece, false, false⟩ = s := by
  have hne : s.board f ≠ [] := by
    intro h
    rw [h] at hp
    cases hp
  have hrestore : (s.board f).dropLast ++ [piece] = s.board f := by
    have hlast : (s.board f).getLast hne = piece := by
      rw [List.getLast?_eq_getLast _ hne] at hp
      exact Option.some.inj hp
    rw [← hlast]
    exact List.dropLast_append_getLast hne
  unfold undoMoveInPlace liftAt
  simp only [hf, Bool.not_false, Bool.false_eq_true, if_true, if_false]
  apply GameState.eq_of
  · simp only [Function.update_same, hrestore, Function.update_idem, Function.update_eq_self]
  · rfl
  · rfl

theorem undo_slide_completed (s : GameState) (m : Move) (f : Pos) (piece : Piece)
    (hf : m.fromPos = some f) (hp : (s.board f).getLast? = some piece) (hto : m.toPos ≠ f) :
    undoMoveInPlace
      { liftAt s f with
        board := Function.update (liftAt s f).board m.toPos
          ((liftAt s f).board m.toPos ++ [piece]) }
      ⟨m, piece, true, false⟩ = s := by
  have hne : s.board f ≠ [] := by
    intro h
    rw [h] at hp
    cases hp
  have hrestore : (s.board f).dropLast ++ [piece] = s.board f := by
    have hlast : (s.board f).getLast hne = piece := by
      rw [List.getLast?_eq_getLast _ hne] at hp
      exact Option.some.inj hp
    rw [← hlast]
    exact List.dropLast_append_getLast hne
  have hres : m.isFromReserve = false := by simp [Move.isFromReserve, hf]
  have hfne : f ≠ m.toPos := fun h => hto h.symm
  unfold undoMoveInPlace liftAt
  simp only [hres, hf, Bool.not_true, Bool.false_eq_true, if_false, if_true]
  apply GameState.eq_of
  · simp only [Function.update_same, List.dropLast_concat, Function.update_idem,
      Function.update_noteq hfne, hrestore, Function.update_eq_self]
  · rfl
  · rfl

theorem roundtrip_slide (s : GameState) (m : Move) (f : Pos) (piece : Piece)
    (hf : m.fromPos = some f) (hp : (s.board f).getLast? = some piece) (hto : m.toPos ≠ f) :
    ∃ r u s', applyMoveInPlace s m = some (r, u, s') ∧ undoMoveInPlace s' u = s := by
  have hcomp :
      undoMoveInPlace
        (finishMove
          { liftAt s f with
            board := Function.update (liftAt s f).board m.toPos
              ((liftAt s f).board m.toPos ++ [piece]) } m piece).2.2
        (finishMove
          { liftAt s f with
            board := Function.update (liftAt s f).board m.toPos
              ((liftAt s f).board m.toPos ++ [piece]) } m piece).2.1 = s :=
    (undo_finishMove _ m piece).trans (undo_slide_completed s m f piece hf hp hto)
  simp only [applyMoveInPlace, hf, hp]
  split
  · exact ⟨_, _, _, rfl, hcomp⟩
  · split
    · exact ⟨_, _, _, rfl, hcomp⟩
    · exact ⟨_, _, _, rfl, undo_slide_incomplete s m f piece hf hp⟩

/-- Shared roundtrip lemma: applying any generated move succeeds and
undoing restores the position exactly. -/
theorem applyUndo_roundtrip (s : GameState) (m : Move) (hm : m ∈ generateMoves s) :
    ∃ r u s', applyMoveInPlace s m = some (r, u, s') ∧ undoMoveInPlace s' u = s := by
  rcases mem_generateMoves_cases hm with ⟨hf, -, sz, hs⟩ | ⟨f, top, hf, hp, -, hto⟩
  · have hcomp :=
      (undo_finishMove
        { s with
          reserves := updateReserve s.reserves s.currentPlayer sz
            (s.reserves s.currentPlayer sz - 1)
          board := Function.update s.board m.toPos
            (s.board m.toPos ++ [⟨s.currentPlayer, sz⟩]) }
        m ⟨s.currentPlayer, sz⟩).trans (undo_reserve_completed s m sz hf)
    rw [applyMove_reserve s m sz hf hs]
    exact ⟨_, _, _, rfl, hcomp⟩
  · exact roundtrip_slide s m f top hf hp hto

/-- Claim C2: for every position `p` and every move `m` legal in `p`
(produced by `generate_moves`), applying `m` in place succeeds and undoing
with the returned `UndoInfo` restores `p` exactly: the same stack in every
cell, the same reserve count for every player and size, and the same side
to move.  This covers completed moves and reveal-loss slides alike. -/
theorem apply_then_undo_restores (p : GameState) (m : Move) (hm : m ∈ generateMoves p) :
    ∃ result undo p', applyMoveInPlace p m = some (result, undo, p') ∧
      (∀ q : Pos, (undoMoveInPlace p' undo).board q = p.board q) ∧
      (∀ (pl : Player) (sz : Size),
        (undoMoveInPlace p' undo).reserves pl sz = p.reserves pl sz) ∧
      (undoMoveInPlace p' undo).currentPlayer = p.currentPlayer := by
  obtain ⟨r, u, p', happ, hundo⟩ := applyUndo_roundtrip p m hm
  exact ⟨r, u, p', happ, fun q => by rw [hundo], fun pl sz => by rw [hundo], by rw [hundo]⟩

/-- Witness for the roundtrip claim: P1's opening placement of a small
piece on the corner. -/
theorem apply_then_undo_restores_witness :
    (⟨.one, (0, 0), none, some .small⟩ : Move) ∈ generateMoves GameState.init ∧
      ∃ result undo p',
        applyMoveInPlace GameState.init ⟨.one, (0, 0), none, some .small⟩ =
          some (result, undo, p') ∧
        (∀ q : Pos, (undoMoveInPlace p' undo).board q = GameState.init.board q) ∧
        (∀ (pl : Player) (sz : Size),
          (undoMoveInPlace p' undo).reserves pl sz = GameState.init.reserves pl sz) ∧
        (undoMoveInPlace p' undo).currentPlayer = GameState.init.currentPlayer :=
  ⟨by decide, apply_then_undo_restores GameState.init _ (by decide)⟩

theorem finishMove_state_reserves (s2 : GameState) (m : Move) (piece : Piece) :
    (finishMove s2 m piece).2.2.reserves = s2.reserves := by
  unfold finishMove
  split <;> rfl

/-- Claim C10: a slide (a move whose `from_pos` is set) never changes any
reserve count — neither when `apply_move_in_place` completes it nor when
it ends in a reveal loss — and `undo_move_in_place` of a slide's
`UndoInfo` leaves every reserve count unchanged as well; only
place-from-reserve moves touch the reserves. -/
theorem slide_preserves_reserves (s : GameState) (m : Move) (f : Pos)
    (hf : m.fromPos = some f) :
    (∀ res, applyMoveInPlace s m = some res →
      ∀ (pl : Player) (sz : Size), res.2.2.reserves pl sz = s.reserves pl sz) ∧
    (∀ u : UndoInfo, u.move.fromPos = some f →
      ∀ (pl : Player) (sz : Size),
        (undoMoveInPlace s u).reserves pl sz = s.reserves pl sz) := by
  constructor
  · intro res happ pl sz
    simp only [applyMoveInPlace, hf] at happ
    split at happ
    next => exact Option.noConfusion happ
    next piece hgl =>
      split at happ
      · cases Option.some.inj happ
        rw [finishMove_state_reserves]
        rfl
      · split at happ
        · cases Option.some.inj happ
          rw [finishMove_state_reserves]
          rfl
        · cases Option.some.inj happ
          rfl
  · intro u hu pl sz
    have hres : u.move.isFromReserve = false := by simp [Move.isFromReserve, hu]
    unfold undoMoveInPlace
    cases hps : u.playerSwitched <;> cases hmc : u.moveCompleted <;>
      simp only [hps, hmc, hres, hu, Bool.not_true, Bool.not_false, Bool.false_eq_true,
        if_true, if_false]

/-- Witness for the slide frame condition: the reveal-loss-prone slide of
the P2 large piece in `R1`. -/
theorem slide_preserves_reserves_witness :
    slideA.fromPos = some ((0, 1) : Pos) ∧
      ((∀ res, applyMoveInPlace R1 slideA = some res →
        ∀ (pl : Player) (sz : Size), res.2.2.reserves pl sz = R1.reserves pl sz) ∧
      (∀ u : UndoInfo, u.move.fromPos = some ((0, 1) : Pos) →
        ∀ (pl : Player) (sz : Size),
          (undoMoveInPlace R1 u).reserves pl sz = R1.reserves pl sz)) :=
  ⟨rfl, slide_preserves_reserves R1 slideA (0, 1) rfl⟩

/-! ## The reveal rule -/

theorem mem_generateMoves_slide (s : GameState) (f : Pos) (top : Piece) (m : Move)
    (hm : m.fromPos = some f) (htop : s.getTop f = some top)
    (hpl : top.player = s.currentPlayer)
    (hrev : (liftAt s f).getWinningLines s.currentPlayer.opponent ≠ []) :
    m ∈ generateMoves s ↔
      m.player = s.currentPlayer ∧ m.size = none ∧
        m.toPos ∈ validTargets (liftAt s f) top f
          ((liftAt s f).getWinningLines s.currentPlayer.opponent) := by
  constructor
  · intro h
    simp only [generateMoves, generateMovesWithRevealCheck] at h
    rw [List.mem_append] at h
    rcases h with h | h
    · rw [List.mem_flatMap] at h
      obtain ⟨sz, -, h⟩ := h
      split at h
      · rw [List.mem_filterMap] at h
        obtain ⟨pos, -, hpos⟩ := h
        split at hpos
        · cases hpos
          exact Option.noConfusion hm
        · exact Option.noConfusion hpos
      · simp at h
    · rw [List.mem_flatMap] at h
      obtain ⟨f', -, h⟩ := h
      split at h
      next => simp at h
      next top' hgt' =>
        split at h
        next hpl' =>
          split at h
          next hemp =>
            rw [List.mem_filterMap] at h
            obtain ⟨pos, -, hpos⟩ := h
            split at hpos
            next => exact Option.noConfusion hpos
            next hne =>
              split at hpos
              next =>
                cases hpos
                cases hm
                rw [htop] at hgt'
                cases hgt'
                exact absurd (List.isEmpty_iff.mp hemp) hrev
              next => exact Option.noConfusion hpos
          next hemp =>
            rw [List.mem_map] at h
            obtain ⟨pos, hmem, heq⟩ := h
            cases heq
            cases hm
            rw [htop] at hgt'
            cases hgt'
            exact ⟨rfl, rfl, hmem⟩
        next => simp at h
  · rintro ⟨hpl', hsz, hmem⟩
    simp only [generateMoves, generateMovesWithRevealCheck]
    rw [List.mem_append]
    right
    rw [List.mem_flatMap]
    refine ⟨f, mem_allPositions f, ?_⟩
    split
    next hgt =>
      rw [htop] at hgt
      exact Option.noConfusion hgt
    next top' hgt =>
      rw [htop] at hgt
      cases hgt
      rw [if_pos hpl, if_neg (mt List.isEmpty_iff.mp hrev)]
      rw [List.mem_map]
      refine ⟨m.toPos, hmem, ?_⟩
      rcases m with ⟨mp, mt, mf, ms⟩
      cases hm
      cases hsz
      cases hpl'
      rfl

theorem canSaveAt_iff (s1 : GameState) (piece : Piece) (toPos : Pos)
    (oppLines : List (List Pos)) :
    canSaveAt s1 piece toPos oppLines = true ↔
      saveCond s1 piece toPos ∧ ∃ line ∈ oppLines, toPos ∈ line := by
  unfold canSaveAt
  rw [List.any_eq_true]
  constructor
  · rintro ⟨line, hline, hcond⟩
    rw [Bool.and_eq_true] at hcond
    obtain ⟨hc, hmatch⟩ := hcond
    split at hmatch
    next target hgt =>
      exact ⟨⟨target, hgt, hmatch⟩, line, hline,
        List.elem_iff.mp (by simpa [List.contains] using hc)⟩
    next => cases hmatch
  · rintro ⟨⟨target, hgt, hg⟩, line, hline, hmem⟩
    refine ⟨line, hline, ?_⟩
    rw [Bool.and_eq_true]
    exact ⟨by simpa [List.contains] using List.elem_iff.mpr hmem, by simp [hgt, hg]⟩

theorem finishMove_undoCompleted (s2 : GameState) (m : Move) (piece : Piece) :
    (finishMove s2 m piece).2.1.moveCompleted = true := by
  unfold finishMove
  split <;> rfl

/-- Claim C1 as stated is refuted at `R1`: lifting the P2 large at
`(0, 1)` exposes two opponent-winning lines (row 0 and column 1), the
slide to `(0, 0)` is generated, yet its destination does not lie in every
exposed line — `(0, 0)` is not on column 1.  The code requires membership
in some exposed line, not in all of them. -/
theorem revealRule_every_line_counterexample :
    slideA ∈ generateMoves R1 ∧
      (liftAt R1 (0, 1)).getWinningLines R1.currentPlayer.opponent =
        [[(0, 0), (0, 1), (0, 2)], [(0, 1), (1, 1), (2, 1)]] ∧
      ¬(∀ line ∈ (liftAt R1 (0, 1)).getWinningLines R1.currentPlayer.opponent,
          slideA.toPos ∈ line) := by
  decide

/-- Claim C1, amended: for every slide whose lift exposes a nonempty set
`L` of opponent-winning lines, the slide is generated iff its destination
differs from the origin, the lifted piece strictly gobbles the
destination's current top, and the destination appears in **at least one**
line of `L` (not in every line); `apply_move_in_place` completes such a
slide — rather than declaring a reveal loss — under the same condition
without the origin exclusion. -/
theorem revealRule_some_line (s : GameState) (f : Pos) (top : Piece) (m : Move)
    (hm : m.fromPos = some f) (htop : s.getTop f = some top)
    (hpl : top.player = s.currentPlayer)
    (hrev : (liftAt s f).getWinningLines s.currentPlayer.opponent ≠ []) :
    (m ∈ generateMoves s ↔
      m.player = s.currentPlayer ∧ m.size = none ∧ m.toPos ≠ f ∧
        saveCond (liftAt s f) top m.toPos ∧
        ∃ line ∈ (liftAt s f).getWinningLines s.currentPlayer.opponent, m.toPos ∈ line) ∧
    (∀ res, applyMoveInPlace s m = some res →
      (res.2.1.moveCompleted = true ↔
        saveCond (liftAt s f) top m.toPos ∧
        ∃ line ∈ (liftAt s f).getWinningLines s.currentPlayer.opponent, m.toPos ∈ line)) := by
  constructor
  · rw [mem_generateMoves_slide s f top m hm htop hpl hrev, mem_validTargets]
  · intro res happ
    simp only [applyMoveInPlace, hm] at happ
    split at happ
    next hgl =>
      have h2 : (s.board f).getLast? = some top := htop
      rw [h2] at hgl
      exact Option.noConfusion hgl
    next piece hgl =>
      have h2 : (s.board f).getLast? = some top := htop
      rw [h2] at hgl
      cases Option.some.inj hgl
      split at happ
      next hemp => exact absurd (List.isEmpty_iff.mp hemp) hrev
      next =>
        split at happ
        next hcs =>
          cases Option.some.inj happ
          rw [finishMove_undoCompleted]
          simp only [true_iff]
          exact (canSaveAt_iff _ _ _ _).mp hcs
        next hcs =>
          cases Option.some.inj happ
          constructor
          · intro h
            cases h
          · intro hrhs
            exact absurd ((canSaveAt_iff _ _ _ _).mpr hrhs) hcs

/-- Witness for the amended reveal rule at `R1` and the slide to `(0, 0)`:
the hypotheses hold concretely and the generation characterization
follows. -/
theorem revealRule_some_line_witness :
    slideA.fromPos = some ((0, 1) : Pos) ∧
      R1.getTop (0, 1) = some ⟨.two, .large⟩ ∧
      (Piece.mk .two .large).player = R1.currentPlayer ∧
      (liftAt R1 (0, 1)).getWinningLines R1.currentPlayer.opponent ≠ [] ∧
      (slideA ∈ generateMoves R1 ↔
        slideA.player = R1.currentPlayer ∧ slideA.size = none ∧
          slideA.toPos ≠ (0, 1) ∧
          saveCond (liftAt R1 (0, 1)) ⟨.two, .large⟩ slideA.toPos ∧
          ∃ line ∈ (liftAt R1 (0, 1)).getWinningLines R1.currentPlayer.opponent,
            slideA.toPos ∈ line) :=
  ⟨rfl, by decide, by decide, by decide,
    (revealRule_some_line R1 (0, 1) ⟨.two, .large⟩ slideA rfl (by decide) (by decide)
      (by decide)).1⟩

/-! ## Solver frame creation: zugzwang and table writes -/

/-- Claim C4: when the side to move has no legal moves (`generate_moves`
returns the empty list), `_create_frame_fast` stores a loss for the side
to move under the position's canonical key — `WIN_P2` when player one is
to move, `WIN_P1` when player two is — and returns no frame, so the
solver scores the position as lost for the mover. -/
theorem zugzwang_scores_loss (s : GameState) (c : Nat) (t : Table)
    (hmoves : generateMoves s = []) :
    createFrameFast s c t =
      some (none, s,
        storeTable t c (if s.currentPlayer = .one then Outcome.winP2 else Outcome.winP1),
        [(c, if s.currentPlayer = .one then Outcome.winP2 else Outcome.winP1)]) := by
  simp [createFrameFast, hmoves]

/-- Witness for the zugzwang claim: an empty board whose reserves are
exhausted has no legal moves, and frame creation stores the P1 loss. -/
theorem zugzwang_scores_loss_witness :
    generateMoves zugzwangState = [] ∧
      createFrameFast zugzwangState 0 [] =
        some (none, zugzwangState,
          storeTable [] 0
            (if zugzwangState.currentPlayer = .one then Outcome.winP2 else Outcome.winP1),
          [(0, if zugzwangState.currentPlayer = .one then Outcome.winP2 else Outcome.winP1)]) :=
  ⟨by decide, zugzwang_scores_loss zugzwangState 0 [] (by decide)⟩

/-- Claim C3 fails on the code: in `_create_frame_fast` on `R1` — the
very first step of `Solver.solve` from `R1`, with an empty table — the
write trace stores the canonical key `19147172780475400` first with
`WIN_P2` and then with `WIN_P1`, and the table retains the later value.
The two saving slides of the P2 large produce mirror-symmetric children
that each contain a completed line of **both** players; `check_winner`
resolves such boards by line order, which is not symmetry-invariant, so
one canonical key receives two different outcomes within a single solve.
The final two conjuncts exhibit the mechanism: the two slides end in
different winners yet canonicalize to the same key. -/
theorem table_write_conflict :
    (createFrameFast R1 (canonicalizeState R1) []).map (fun r => r.2.2.2) =
      some [(19149679971418248, Outcome.winP2),
        (19149679971418248, Outcome.winP2),
        (19147172780475400, Outcome.winP2),
        (19147172780475400, Outcome.winP1)] ∧
    (createFrameFast R1 (canonicalizeState R1) []).map
        (fun r => lookupTable r.2.2.1 19147172780475400) =
      some (some Outcome.winP1) ∧
    (applyMoveInPlace R1 slideA).map (fun r => r.1) = some GameResult.playerTwoWins ∧
    (applyMoveInPlace R1 slideB).map (fun r => r.1) = some GameResult.playerOneWins ∧
    (applyMoveInPlace R1 slideA).map (fun r => canonicalize (encodeState r.2.2)) =
      (applyMoveInPlace R1 slideB).map (fun r => canonicalize (encodeState r.2.2)) := by
  decide

/-! ## Bit-packing arithmetic -/

theorem shiftRight_lor_distrib (a b k : Nat) : (a ||| b) >>> k = (a >>> k) ||| (b >>> k) := by
  apply Nat.eq_of_testBit_eq
  intro i
  simp [Nat.testBit_shiftRight, Nat.testBit_lor]

theorem and_lor_distrib (a b c : Nat) : (a ||| b) &&& c = (a &&& c) ||| (b &&& c) := by
  apply Nat.eq_of_testBit_eq
  intro i
  simp [Nat.testBit_land, Nat.testBit_lor, Bool.and_or_distrib_right]

theorem lor_lt_two_pow {a b k : Nat} (ha : a < 2 ^ k) (hb : b < 2 ^ k) :
    a ||| b < 2 ^ k := by
  have h : (a ||| b) / 2 ^ k = 0 := by
    have hd := shiftRight_lor_distrib a b k
    rw [Nat.shiftRight_eq_div_pow, Nat.shiftRight_eq_div_pow, Nat.shiftRight_eq_div_pow,
      Nat.div_eq_of_lt ha, Nat.div_eq_of_lt hb] at hd
    simpa using hd
  rcases Nat.lt_or_ge (a ||| b) (2 ^ k) with h' | h'
  · exact h'
  · have hone : 1 ≤ (a ||| b) / 2 ^ k :=
      (Nat.one_le_div_iff (Nat.pos_pow_of_pos _ (by norm_num))).mpr h'
    omega

theorem lor_shiftLeft_eq_add {a b k : Nat} (ha : a < 2 ^ k) :
    a ||| (b <<< k) = a + b * 2 ^ k := by
  have hmod : (a ||| (b <<< k)) % 2 ^ k = a := by
    rw [← Nat.and_pow_two_sub_one_eq_mod, and_lor_distrib]
    have h1 : a &&& (2 ^ k - 1) = a := by
      rw [Nat.and_pow_two_sub_one_eq_mod]
      exact Nat.mod_eq_of_lt ha
    have h2 : (b <<< k) &&& (2 ^ k - 1) = 0 := by
      rw [Nat.and_pow_two_sub_one_eq_mod, Nat.shiftLeft_eq]
      exact Nat.mul_mod_left b (2 ^ k)
    rw [h1, h2]
    exact Nat.or_zero a
  have hdiv : (a ||| (b <<< k)) / 2 ^ k = b :=
    calc (a ||| b <<< k) / 2 ^ k = (a ||| b <<< k) >>> k := (Nat.shiftRight_eq_div_pow _ _).symm
      _ = (a >>> k) ||| ((b <<< k) >>> k) := shiftRight_lor_distrib a _ k
      _ = 0 ||| b := by
          rw [Nat.shiftRight_eq_div_pow, Nat.div_eq_of_lt ha, Nat.shiftLeft_shiftRight]
      _ = b := Nat.zero_or b
  calc a ||| b <<< k
      = 2 ^ k * ((a ||| b <<< k) / 2 ^ k) + (a ||| b <<< k) % 2 ^ k :=
        (Nat.div_add_mod _ _).symm
    _ = a + b * 2 ^ k := by rw [hdiv, hmod]; ring

theorem and_63_lt (x : Nat) : x &&& 63 < 64 :=
  Nat.lt_succ_of_le (Nat.and_le_right)

theorem and_63_of_lt {x : Nat} (h : x < 64) : x &&& 63 = x := by
  have h63 : (63 : Nat) = 2 ^ 6 - 1 := by norm_num
  rw [h63, Nat.and_pow_two_sub_one_eq_mod]
  exact Nat.mod_eq_of_lt h

/-! ## Extraction of cell fields -/

theorem cellAt_lt (e i : Nat) : cellAt e i < 64 := and_63_lt _

theorem cellAt_lor (a b i : Nat) : cellAt (a ||| b) i = cellAt a i ||| cellAt b i := by
  unfold cellAt
  rw [shiftRight_lor_distrib, and_lor_distrib]

theorem bit54_lor (a b : Nat) : bit54 (a ||| b) = bit54 a ||| bit54 b := by
  unfold bit54
  rw [shiftRight_lor_distrib, and_lor_distrib]

theorem cellAt_zero (i : Nat) : cellAt 0 i = 0 := by
  unfold cellAt
  simp

theorem bit54_zero : bit54 0 = 0 := by
  unfold bit54
  simp

theorem cellAt_shiftLeft_eq {c : Nat} (hc : c < 64) (k i : Nat) (h : k = 6 * i) :
    cellAt (c <<< k) i = c := by
  unfold cellAt
  subst h
  rw [Nat.shiftLeft_shiftRight]
  exact and_63_of_lt hc

theorem cellAt_shiftLeft_gt (c : Nat) {k i : Nat} (h : 6 * i + 6 ≤ k) :
    cellAt (c <<< k) i = 0 := by
  unfold cellAt
  rw [Nat.shiftLeft_eq, Nat.shiftRight_eq_div_pow]
  have hk : c * 2 ^ k = c * 2 ^ 6 * 2 ^ (k - 6 * i - 6) * 2 ^ (6 * i) := by
    rw [mul_assoc, mul_assoc, ← pow_add, ← pow_add]
    congr 2
    omega
  rw [hk, Nat.mul_div_cancel _ (Nat.pos_pow_of_pos _ (by norm_num))]
  have h63 : (63 : Nat) = 2 ^ 6 - 1 := by norm_num
  rw [h63, Nat.and_pow_two_sub_one_eq_mod]
  have hre : c * 2 ^ 6 * 2 ^ (k - 6 * i - 6) = c * 2 ^ (k - 6 * i - 6) * 2 ^ 6 := by ring
  rw [hre]
  exact Nat.mul_mod_left _ _

theorem cellAt_shiftLeft_lt {c : Nat} (hc : c < 64) {k i : Nat} (h : k + 6 ≤ 6 * i) :
    cellAt (c <<< k) i = 0 := by
  unfold cellAt
  rw [Nat.shiftLeft_eq, Nat.shiftRight_eq_div_pow]
  have hk : (2 : Nat) ^ (6 * i) = 2 ^ k * 2 ^ (6 * i - k) := by
    rw [← pow_add]
    congr 1
    omega
  have hdiv : c * 2 ^ k / 2 ^ (6 * i) = 0 := by
    rw [hk, ← Nat.div_div_eq_div_mul,
      Nat.mul_div_cancel _ (Nat.pos_pow_of_pos _ (by norm_num))]
    apply Nat.div_eq_of_lt
    calc c < 64 := hc
      _ = 2 ^ 6 := by norm_num
      _ ≤ 2 ^ (6 * i - k) := Nat.pow_le_pow_right (by norm_num) (by omega)
  rw [hdiv]
  simp

theorem cellAt_small {c : Nat} (hc : c < 64) {i : Nat} (h : 1 ≤ i) : cellAt c i = 0 := by
  have := cellAt_shiftLeft_lt hc (k := 0) (i := i) (by omega)
  simpa using this

theorem cellAt_small_zero {c : Nat} (hc : c < 64) : cellAt c 0 = c := by
  have := cellAt_shiftLeft_eq hc 0 0 (by norm_num)
  simpa using this

theorem bit54_shiftLeft_small {c : Nat} (hc : c < 64) {k : Nat} (h : k + 6 ≤ 54) :
    bit54 (c <<< k) = 0 := by
  unfold bit54
  rw [Nat.shiftLeft_eq, Nat.shiftRight_eq_div_pow]
  have hdiv : c * 2 ^ k / 2 ^ 54 = 0 := by
    apply Nat.div_eq_of_lt
    calc c * 2 ^ k < 64 * 2 ^ k :=
          (Nat.mul_lt_mul_right (Nat.pos_pow_of_pos k (by norm_num))).mpr hc
      _ = 2 ^ (k + 6) := by rw [pow_add]; ring
      _ ≤ 2 ^ 54 := Nat.pow_le_pow_right (by norm_num) (by omega)
  rw [hdiv]
  simp

theorem bit54_shiftLeft_54 {c : Nat} (hc : c ≤ 1) : bit54 (c <<< 54) = c := by
  unfold bit54
  rw [Nat.shiftLeft_shiftRight]
  interval_cases c <;> rfl

theorem shiftLeft_lt_two_pow_55 {c : Nat} (hc : c < 64) {k : Nat} (h : k + 6 ≤ 55) :
    c <<< k < 2 ^ 55 := by
  rw [Nat.shiftLeft_eq]
  calc c * 2 ^ k < 64 * 2 ^ k :=
        (Nat.mul_lt_mul_right (Nat.pos_pow_of_pos k (by norm_num))).mpr hc
    _ = 2 ^ (k + 6) := by rw [pow_add]; ring
    _ ≤ 2 ^ 55 := Nat.pow_le_pow_right (by norm_num) h

theorem packList_cons (c : Nat) (cs : List Nat) :
    packList (c :: cs) = c + 64 * packList cs := rfl

theorem cellAt_eq_div_mod (x i : Nat) : cellAt x i = x / 2 ^ (6 * i) % 64 := by
  unfold cellAt
  rw [Nat.shiftRight_eq_div_pow]
  have h63 : (63 : Nat) = 2 ^ 6 - 1 := by norm_num
  rw [h63, Nat.and_pow_two_sub_one_eq_mod]

theorem packList_lt {cs : List Nat} (h : ∀ c ∈ cs, c < 64) :
    packList cs < 2 ^ (6 * cs.length) := by
  induction cs with
  | nil => simp [packList]
  | cons c cs ih =>
    have hc := h c (List.mem_cons_self _ _)
    have hP := ih fun x hx => h x (List.mem_cons_of_mem _ hx)
    rw [packList_cons]
    calc c + 64 * packList cs < 64 + 64 * packList cs := by omega
      _ = 64 * (packList cs + 1) := by ring
      _ ≤ 64 * 2 ^ (6 * cs.length) := Nat.mul_le_mul_left _ (by omega)
      _ = 2 ^ (6 * (c :: cs).length) := by
          rw [List.length_cons, show 6 * (cs.length + 1) = 6 * cs.length + 6 by ring, pow_add]
          ring

theorem cellAt_packList {cs : List Nat} (h : ∀ c ∈ cs, c < 64) :
    ∀ {i : Nat}, i < cs.length → cellAt (packList cs) i = cs.getD i 0 := by
  induction cs with
  | nil => intro i hi; simp at hi
  | cons c cs ih =>
    intro i hi
    have hc := h c (List.mem_cons_self _ _)
    cases i with
    | zero =>
      rw [cellAt_eq_div_mod, packList_cons]
      simp only [Nat.mul_zero, pow_zero, Nat.div_one]
      rw [Nat.add_mul_mod_self_left, Nat.mod_eq_of_lt hc]
      rfl
    | succ i =>
      have hstep : packList (c :: cs) / 2 ^ (6 * (i + 1)) = packList cs / 2 ^ (6 * i) := by
        rw [packList_cons, show 6 * (i + 1) = 6 + 6 * i by ring, pow_add,
          ← Nat.div_div_eq_div_mul, show (2 : Nat) ^ 6 = 64 by norm_num,
          Nat.add_mul_div_left _ _ (by norm_num : (0 : Nat) < 64), Nat.div_eq_of_lt hc]
        simp
      rw [cellAt_eq_div_mod, hstep, ← cellAt_eq_div_mod]
      rw [List.length_cons] at hi
      exact ih (fun x hx => h x (List.mem_cons_of_mem _ hx)) (by omega)

theorem cellAt_pack {cs : List Nat} (h : ∀ c ∈ cs, c < 64) (hlen : cs.length = 9)
    {pb : Nat} (hpb : pb ≤ 1) {i : Nat} (hi : i < 9) :
    cellAt (packList cs + pb * 2 ^ 54) i = cs.getD i 0 := by
  rw [cellAt_eq_div_mod]
  have hsplit : pb * 2 ^ 54 = pb * 2 ^ (54 - 6 * i) * 2 ^ (6 * i) := by
    rw [mul_assoc, ← pow_add]
    congr 2
    omega
  rw [hsplit, Nat.add_mul_div_right _ _ (Nat.pos_pow_of_pos _ (by norm_num))]
  have hK : pb * 2 ^ (54 - 6 * i) = pb * 2 ^ (54 - 6 * i - 6) * 64 := by
    rw [mul_assoc, show (64 : Nat) = 2 ^ 6 by norm_num, ← pow_add]
    congr 2
    omega
  rw [hK, Nat.add_mul_mod_self_right, ← cellAt_eq_div_mod]
  exact cellAt_packList h (by omega)

theorem bit54_pack {cs : List Nat} (h : ∀ c ∈ cs, c < 64) (hlen : cs.length = 9)
    {pb : Nat} (hpb : pb ≤ 1) : bit54 (packList cs + pb * 2 ^ 54) = pb := by
  have hP : packList cs < 2 ^ 54 := by
    have := packList_lt h
    rw [hlen] at this
    exact this
  unfold bit54
  rw [Nat.shiftRight_eq_div_pow,
    Nat.add_mul_div_right _ _ (Nat.pos_pow_of_pos _ (by norm_num)),
    Nat.div_eq_of_lt hP, Nat.zero_add]
  interval_cases pb <;> rfl

theorem pack_lt_two_pow_55 {cs : List Nat} (h : ∀ c ∈ cs, c < 64) (hlen : cs.length = 9)
    {pb : Nat} (hpb : pb ≤ 1) : packList cs + pb * 2 ^ 54 < 2 ^ 55 := by
  have hP : packList cs < 2 ^ 54 := by
    have := packList_lt h
    rw [hlen] at this
    exact this
  have h55 : (2 : Nat) ^ 55 = 2 ^ 54 + 2 ^ 54 := by
    rw [pow_succ]
    ring
  have hpb' : pb * 2 ^ 54 ≤ 2 ^ 54 := by
    calc pb * 2 ^ 54 ≤ 1 * 2 ^ 54 := Nat.mul_le_mul_right _ hpb
      _ = 2 ^ 54 := Nat.one_mul _
  omega

/-- Two encodings below `2^55` with the same nine cell fields and the same
side-to-move bit are equal. -/
theorem eq_of_parts_eq {x y : Nat} (hx : x < 2 ^ 55) (hy : y < 2 ^ 55)
    (hc : ∀ i, i < 9 → cellAt x i = cellAt y i) (hb : bit54 x = bit54 y) : x = y := by
  have key : ∀ k, k ≤ 9 → x % 2 ^ (6 * k) = y % 2 ^ (6 * k) := by
    intro k
    induction k with
    | zero => simp [Nat.mod_one]
    | succ k ih =>
      intro hk
      have h1 := ih (by omega)
      have hck := hc k (by omega)
      rw [cellAt_eq_div_mod, cellAt_eq_div_mod] at hck
      have hsplit : ∀ z : Nat,
          z % 2 ^ (6 * (k + 1)) = z % 2 ^ (6 * k) + 2 ^ (6 * k) * (z / 2 ^ (6 * k) % 64) := by
        intro z
        rw [show 6 * (k + 1) = 6 * k + 6 by ring, pow_add,
          show (2 : Nat) ^ 6 = 64 by norm_num, Nat.mod_mul]
      rw [hsplit x, hsplit y, h1, hck]
  have h54 : x % 2 ^ 54 = y % 2 ^ 54 := key 9 (le_refl 9)
  have hdivle : ∀ z : Nat, z < 2 ^ 55 → z / 2 ^ 54 ≤ 1 := by
    intro z hz
    have h2 : z < 2 * 2 ^ 54 := by
      calc z < 2 ^ 55 := hz
        _ = 2 * 2 ^ 54 := by rw [pow_succ]; ring
    have hpos : (0 : Nat) < 2 ^ 54 := Nat.pos_pow_of_pos 54 (by norm_num)
    have := (Nat.div_lt_iff_lt_mul hpos).mpr h2
    omega
  have hbit : ∀ z : Nat, z < 2 ^ 55 → bit54 z = z / 2 ^ 54 := by
    intro z hz
    unfold bit54
    rw [Nat.shiftRight_eq_div_pow]
    have hd := hdivle z hz
    set d := z / 2 ^ 54 with hdd
    interval_cases d <;> rfl
  have hdeq : x / 2 ^ 54 = y / 2 ^ 54 := by
    rw [← hbit x hx, ← hbit y hy]
    exact hb
  have e1 := Nat.div_add_mod x (2 ^ 54)
  have e2 := Nat.div_add_mod y (2 ^ 54)
  omega

/-- The fold of `encode_state` is base-64 digit packing. -/
theorem encode_foldl_eq (cs : List Nat) (h : ∀ c ∈ cs, c < 64) :
    ∀ (acc k : Nat), acc < 2 ^ k →
      (cs.foldl (fun (a : Nat × Nat) c => (a.1 ||| (c <<< a.2), a.2 + 6)) (acc, k)).1 =
        acc + packList cs * 2 ^ k := by
  induction cs with
  | nil =>
    intro acc k hacc
    simp [packList]
  | cons c cs ih =>
    intro acc k hacc
    have hc : c < 64 := h c (List.mem_cons_self _ _)
    have hstep : acc ||| (c <<< k) = acc + c * 2 ^ k := lor_shiftLeft_eq_add hacc
    have hbound : acc + c * 2 ^ k < 2 ^ (k + 6) := by
      calc acc + c * 2 ^ k < 2 ^ k + c * 2 ^ k := Nat.add_lt_add_right hacc _
        _ = (c + 1) * 2 ^ k := by ring
        _ ≤ 64 * 2 ^ k := Nat.mul_le_mul_right _ (by omega)
        _ = 2 ^ (k + 6) := by rw [pow_add]; ring
    rw [List.foldl_cons]
    show (cs.foldl _ (acc ||| (c <<< k), k + 6)).1 = _
    rw [hstep, ih (fun x hx => h x (List.mem_cons_of_mem _ hx)) _ _ hbound, packList_cons,
      pow_add]
    ring

theorem cellOwners_fold_lt :
    ∀ (stack : List Piece) (acc : Nat × Nat × Nat), acc.1 < 4 → acc.2.1 < 4 → acc.2.2 < 4 →
      (stack.foldl cellOwnersStep acc).1 < 4 ∧ (stack.foldl cellOwnersStep acc).2.1 < 4 ∧
        (stack.foldl cellOwnersStep acc).2.2 < 4
  | [], _, h1, h2, h3 => ⟨h1, h2, h3⟩
  | pc :: rest, acc, h1, h2, h3 => by
    obtain ⟨ppl, psz⟩ := pc
    have hval : Player.val ppl < 4 := by cases ppl <;> decide
    simp only [List.foldl_cons]
    cases psz
    · exact cellOwners_fold_lt rest _ hval h2 h3
    · exact cellOwners_fold_lt rest _ h1 hval h3
    · exact cellOwners_fold_lt rest _ h1 h2 hval

theorem cellOwners_lt (stack : List Piece) :
    (cellOwners stack).1 < 4 ∧ (cellOwners stack).2.1 < 4 ∧ (cellOwners stack).2.2 < 4 :=
  cellOwners_fold_lt stack (0, 0, 0) (by norm_num) (by norm_num) (by norm_num)

theorem cellCode_lt (stack : List Piece) : cellCode stack < 64 := by
  obtain ⟨h1, h2, h3⟩ := cellOwners_lt stack
  unfold cellCode
  have e2 : (cellOwners stack).2.1 <<< 2 = (cellOwners stack).2.1 * 4 := by
    rw [Nat.shiftLeft_eq]
  have e4 : (cellOwners stack).2.2 <<< 4 = (cellOwners stack).2.2 * 16 := by
    rw [Nat.shiftLeft_eq]
  have ha : (cellOwners stack).1 < 2 ^ 6 := by omega
  have hb : (cellOwners stack).2.1 <<< 2 < 2 ^ 6 := by rw [e2]; omega
  have hc : (cellOwners stack).2.2 <<< 4 < 2 ^ 6 := by rw [e4]; omega
  have := lor_lt_two_pow (lor_lt_two_pow ha hb) hc
  simpa using this

/-- `encode_state` as base-64 digit packing of the nine cell codes plus the
player bit at bit 54. -/
theorem encodeState_eq (s : GameState) :
    encodeState s =
      packList (allPositions.map fun q => cellCode (s.board q)) +
        (if s.currentPlayer = .one then 0 else 1) * 2 ^ 54 := by
  have hlt : ∀ c ∈ allPositions.map fun q => cellCode (s.board q), c < 64 := by
    intro c hc
    rw [List.mem_map] at hc
    obtain ⟨q, _, rfl⟩ := hc
    exact cellCode_lt _
  have hlen : (allPositions.map fun q => cellCode (s.board q)).length = 9 := by
    simp [allPositions]
  have hfold := encode_foldl_eq _ hlt 0 0 (by norm_num)
  rw [List.foldl_map] at hfold
  unfold encodeState
  rw [hfold]
  have hcs : packList (allPositions.map fun q => cellCode (s.board q)) < 2 ^ 54 := by
    have h := packList_lt hlt
    rw [hlen] at h
    norm_num at h
    exact h
  have hstep := @lor_shiftLeft_eq_add _
    (if s.currentPlayer = .one then (0 : Nat) else 1) _ hcs
  simp only [pow_zero, mul_one, Nat.zero_add]
  exact hstep

theorem playerBit_le_one (s : GameState) :
    (if s.currentPlayer = .one then (0 : Nat) else 1) ≤ 1 := by
  split <;> norm_num

theorem cellAt_encodeState (s : GameState) {i : Nat} (hi : i < 9) :
    cellAt (encodeState s) i =
      (allPositions.map fun q => cellCode (s.board q)).getD i 0 := by
  rw [encodeState_eq]
  exact cellAt_pack
    (fun c hc => by
      rw [List.mem_map] at hc
      obtain ⟨q, _, rfl⟩ := hc
      exact cellCode_lt _)
    (by simp [allPositions]) (playerBit_le_one s) hi

theorem bit54_encodeState (s : GameState) :
    bit54 (encodeState s) = if s.currentPlayer = .one then 0 else 1 := by
  rw [encodeState_eq]
  exact bit54_pack
    (fun c hc => by
      rw [List.mem_map] at hc
      obtain ⟨q, _, rfl⟩ := hc
      exact cellCode_lt _)
    (by simp [allPositions]) (playerBit_le_one s)

theorem encodeState_lt (s : GameState) : encodeState s < 2 ^ 55 := by
  rw [encodeState_eq]
  exact pack_lt_two_pow_55
    (fun c hc => by
      rw [List.mem_map] at hc
      obtain ⟨q, _, rfl⟩ := hc
      exact cellCode_lt _)
    (by simp [allPositions]) (playerBit_le_one s)

/-! ## The decode/encode roundtrip -/

/-- Decoding the cell code of an ascending stack rebuilds exactly that
stack (small slot first, then medium, then large). -/
theorem decodeCellInto_cellCode (s : GameState) (q : Pos) (stack : List Piece)
    (h : StackAscending stack) :
    decodeCellInto s q (cellCode stack) =
      some (stack.foldl (fun t pc => addPieceAt t q pc) s) := by
  match stack, h with
  | [], _ => rfl
  | [⟨pl1, sz1⟩], _ =>
    cases pl1 <;> cases sz1 <;> rfl
  | [⟨pl1, sz1⟩, ⟨pl2, sz2⟩], h =>
    have h12 : sz1.val < sz2.val := (List.chain'_cons.mp h).1
    cases sz1 <;> cases sz2 <;>
      first
        | exact absurd h12 (by decide)
        | (cases pl1 <;> cases pl2 <;> rfl)
  | [⟨pl1, sz1⟩, ⟨pl2, sz2⟩, ⟨pl3, sz3⟩], h =>
    have h12 : sz1.val < sz2.val := (List.chain'_cons.mp h).1
    have h23 : sz2.val < sz3.val := (List.chain'_cons.mp (List.chain'_cons.mp h).2).1
    cases sz1 <;> cases sz2 <;> cases sz3 <;>
      first
        | exact absurd h12 (by decide)
        | exact absurd h23 (by decide)
        | (cases pl1 <;> cases pl2 <;> cases pl3 <;> rfl)
  | p1 :: p2 :: p3 :: p4 :: rest, h =>
    have h12 : p1.size.val < p2.size.val := (List.chain'_cons.mp h).1
    have h23 : p2.size.val < p3.size.val :=
      (List.chain'_cons.mp (List.chain'_cons.mp h).2).1
    have h34 : p3.size.val < p4.size.val :=
      (List.chain'_cons.mp (List.chain'_cons.mp (List.chain'_cons.mp h).2).2).1
    have hlo : 1 ≤ p1.size.val := by cases p1.size <;> decide
    have hhi : p4.size.val ≤ 3 := by cases p4.size <;> decide
    exact absurd h34 (by omega)

theorem stackFold_board (q : Pos) (stack : List Piece) :
    ∀ s : GameState,
      (stack.foldl (fun t pc => addPieceAt t q pc) s).board =
        Function.update s.board q (s.board q ++ stack) := by
  induction stack with
  | nil =>
    intro s
    simp [Function.update_eq_self]
  | cons pc rest ih =>
    intro s
    simp only [List.foldl_cons]
    rw [ih]
    have hb : (addPieceAt s q pc).board = Function.update s.board q (s.board q ++ [pc]) := rfl
    rw [hb, Function.update_same, Function.update_idem]
    simp

theorem stackFold_reserves (q : Pos) (stack : List Piece) :
    ∀ (s : GameState) (pl : Player) (sz : Size),
      (stack.foldl (fun t pc => addPieceAt t q pc) s).reserves pl sz =
        s.reserves pl sz -
          ((stack.filter fun pc => pc == (⟨pl, sz⟩ : Piece)).length : Int) := by
  induction stack with
  | nil => intro s pl sz; simp
  | cons pc rest ih =>
    intro s pl sz
    obtain ⟨ppl, psz⟩ := pc
    simp only [List.foldl_cons]
    rw [ih]
    by_cases h : pl = ppl ∧ sz = psz
    · obtain ⟨rfl, rfl⟩ := h
      simp only [addPieceAt, updateReserve, and_self, if_true, List.filter_cons,
        beq_self_eq_true, List.length_cons]
      push_cast
      ring
    · have hbeq : ((⟨ppl, psz⟩ : Piece) == (⟨pl, sz⟩ : Piece)) = false := by
        simp only [beq_eq_false_iff_ne, ne_eq, Piece.mk.injEq, not_and]
        intro h1 h2
        exact h ⟨h1.symm, h2.symm⟩
      simp [addPieceAt, updateReserve, h, hbeq, List.filter_cons]

theorem stackFold_player (q : Pos) (stack : List Piece) :
    ∀ s : GameState,
      (stack.foldl (fun t pc => addPieceAt t q pc) s).currentPlayer = s.currentPlayer := by
  induction stack with
  | nil => intro s; rfl
  | cons pc rest ih =>
    intro s
    simp only [List.foldl_cons]
    rw [ih]
    rfl

theorem rebuild_board (qs : List Pos) :
    ∀ (p s : GameState) (x : Pos), qs.Nodup →
      (rebuild p s qs).board x = if x ∈ qs then s.board x ++ p.board x else s.board x := by
  induction qs with
  | nil => intro p s x _; simp [rebuild]
  | cons q0 rest ih =>
    intro p s x hnd
    obtain ⟨hq0, hrest⟩ := List.nodup_cons.mp hnd
    have hstep : rebuild p s (q0 :: rest) =
        rebuild p ((p.board q0).foldl (fun t pc => addPieceAt t q0 pc) s) rest := rfl
    rw [hstep, ih p _ x hrest]
    have hb := stackFold_board q0 (p.board q0) s
    by_cases hx : x = q0
    · subst hx
      have hxr : x ∉ rest := hq0
      simp only [hxr, if_false, List.mem_cons, true_or, if_true]
      rw [hb, Function.update_same]
    · have hbx : ((p.board q0).foldl (fun t pc => addPieceAt t q0 pc) s).board x =
          s.board x := by
        rw [hb]
        exact Function.update_noteq hx _ _
      rw [hbx]
      by_cases hxr : x ∈ rest
      · simp [hxr, hx]
      · simp [hxr, hx]

theorem rebuild_reserves (qs : List Pos) :
    ∀ (p s : GameState) (pl : Player) (sz : Size),
      (rebuild p s qs).reserves pl sz =
        s.reserves pl sz -
          ((qs.map fun q =>
            ((p.board q).filter fun pc => pc == (⟨pl, sz⟩ : Piece)).length).sum : Int) := by
  induction qs with
  | nil => intro p s pl sz; simp [rebuild]
  | cons q0 rest ih =>
    intro p s pl sz
    have hstep : rebuild p s (q0 :: rest) =
        rebuild p ((p.board q0).foldl (fun t pc => addPieceAt t q0 pc) s) rest := rfl
    rw [hstep, ih p _ pl sz, stackFold_reserves q0 (p.board q0) s pl sz]
    simp only [List.map_cons, List.sum_cons]
    push_cast
    ring

theorem rebuild_player (qs : List Pos) :
    ∀ p s : GameState, (rebuild p s qs).currentPlayer = s.currentPlayer := by
  induction qs with
  | nil => intro p s; rfl
  | cons q0 rest ih =>
    intro p s
    have hstep : rebuild p s (q0 :: rest) =
        rebuild p ((p.board q0).foldl (fun t pc => addPieceAt t q0 pc) s) rest := rfl
    rw [hstep, ih p _, stackFold_player q0 (p.board q0) s]

/-- The cell loop of `decode_state`, run over cells holding the codes of
ascending stacks, rebuilds those stacks and advances the offset. -/
theorem decodeFold_eq (e : Nat) (p : GameState) (qs : List Pos) :
    ∀ (s : GameState) (k : Nat),
      (∀ j, j < qs.length →
        (e >>> (k + 6 * j)) &&& 63 = cellCode (p.board (qs.getD j (0, 0)))) →
      (∀ j, j < qs.length → StackAscending (p.board (qs.getD j (0, 0)))) →
      qs.foldl (decodeStep e) (some (s, k)) = some (rebuild p s qs, k + 6 * qs.length) := by
  induction qs with
  | nil =>
    intro s k _ _
    simp [rebuild]
  | cons q0 rest ih =>
    intro s k hcell hasc
    have h0 : (e >>> k) &&& 63 = cellCode (p.board q0) := by
      have h := hcell 0 (by simp)
      simpa using h
    have ha0 : StackAscending (p.board q0) := by
      have h := hasc 0 (by simp)
      simpa using h
    simp only [List.foldl_cons]
    have hstep : decodeStep e (some (s, k)) q0 =
        some ((p.board q0).foldl (fun t pc => addPieceAt t q0 pc) s, k + 6) := by
      show (decodeCellInto s q0 ((e >>> k) &&& 63)).map (fun s' => (s', k + 6)) = _
      rw [h0, decodeCellInto_cellCode s q0 _ ha0]
      rfl
    rw [hstep]
    have hcell' : ∀ j, j < rest.length →
        (e >>> (k + 6 + 6 * j)) &&& 63 = cellCode (p.board (rest.getD j (0, 0))) := by
      intro j hj
      have h := hcell (j + 1) (by simp only [List.length_cons]; omega)
      have harg : k + 6 * (j + 1) = k + 6 + 6 * j := by ring
      rw [harg] at h
      simpa using h
    have hasc' : ∀ j, j < rest.length → StackAscending (p.board (rest.getD j (0, 0))) := by
      intro j hj
      have h := hasc (j + 1) (by simp only [List.length_cons]; omega)
      simpa using h
    rw [ih _ _ hcell' hasc']
    rw [show rebuild p s (q0 :: rest) =
      rebuild p ((p.board q0).foldl (fun t pc => addPieceAt t q0 pc) s) rest from rfl]
    have hlen : k + 6 + 6 * rest.length = k + 6 * (q0 :: rest).length := by
      simp only [List.length_cons]
      ring
    rw [hlen]

/-- C5: for every position satisfying the reachable-position invariants
(strictly ascending stacks; reserves equal to two minus the on-board count
of each kind), `decode_state (encode_state p)` returns a state equal to
`p` in every cell stack, every reserve count, and the side to move. -/
theorem decode_encode_roundtrip (p : GameState) (hp : StateInvariants p) :
    decodeState (encodeState p) = some p := by
  obtain ⟨hasc, hres⟩ := hp
  have hcell : ∀ j, j < (allPositions : List Pos).length →
      (encodeState p >>> (0 + 6 * j)) &&& 63 =
        cellCode (p.board (allPositions.getD j (0, 0))) := by
    intro j hj
    have hj9 : j < 9 := by simpa [allPositions] using hj
    have h1 := cellAt_encodeState p hj9
    simp only [cellAt] at h1
    have h2 : (allPositions.map fun q => cellCode (p.board q)).getD j 0 =
        cellCode (p.board (allPositions.getD j (0, 0))) := by
      interval_cases j <;> rfl
    rw [Nat.zero_add]
    exact h1.trans h2
  have hascj : ∀ j, j < (allPositions : List Pos).length →
      StackAscending (p.board (allPositions.getD j (0, 0))) := fun j _ => hasc _
  have hfold := decodeFold_eq (encodeState p) p allPositions GameState.init 0 hcell hascj
  unfold decodeState
  rw [hfold]
  simp only [Option.map_some']
  congr 1
  apply GameState.eq_of
  · funext x
    show (rebuild p GameState.init allPositions).board x = p.board x
    rw [rebuild_board allPositions p GameState.init x (by decide)]
    simp [mem_allPositions x, GameState.init]
  · funext pl sz
    show (rebuild p GameState.init allPositions).reserves pl sz = p.reserves pl sz
    rw [rebuild_reserves allPositions p GameState.init pl sz, hres pl sz]
    rfl
  · show (if (encodeState p >>> 54) &&& 1 = 0 then Player.one else Player.two) =
      p.currentPlayer
    have hb : (encodeState p >>> 54) &&& 1 = bit54 (encodeState p) := rfl
    rw [hb, bit54_encodeState]
    cases hcp : p.currentPlayer <;> simp [hcp]

theorem decode_encode_roundtrip_witness :
    StateInvariants GameState.init ∧
      decodeState (encodeState GameState.init) = some GameState.init :=
  ⟨by decide, decode_encode_roundtrip GameState.init (by decide)⟩

/-! ## What `decode_state` does and does not validate -/

theorem addSlot_eq_none (q : Pos) (sz : Size) (owner : Nat) (s : GameState) :
    addSlot q sz owner s = none ↔ 3 ≤ owner := by
  rcases owner with _ | _ | _ | n <;> simp [addSlot] <;> omega

theorem decodeCellInto_eq_none_iff (s : GameState) (q : Pos) (bits : Nat) :
    decodeCellInto s q bits = none ↔ slotBad bits := by
  have hb1 : bits &&& 3 ≤ 3 := Nat.and_le_right
  have hb2 : (bits >>> 2) &&& 3 ≤ 3 := Nat.and_le_right
  have hb3 : (bits >>> 4) &&& 3 ≤ 3 := Nat.and_le_right
  unfold decodeCellInto slotBad
  rcases h1 : addSlot q .small (bits &&& 3) s with _ | s1
  · have h1' : 3 ≤ bits &&& 3 := (addSlot_eq_none _ _ _ _).mp h1
    simp only [h1, Option.none_bind]
    constructor
    · intro _
      exact Or.inl (by omega)
    · intro _
      trivial
  · have h1' : ¬ 3 ≤ bits &&& 3 := by
      intro hc
      rw [(addSlot_eq_none q .small (bits &&& 3) s).mpr hc] at h1
      exact Option.noConfusion h1
    have hne1 : ¬ bits &&& 3 = 3 := by omega
    simp only [h1, Option.some_bind]
    rcases h2 : addSlot q .medium ((bits >>> 2) &&& 3) s1 with _ | s2
    · have h2' : 3 ≤ (bits >>> 2) &&& 3 := (addSlot_eq_none _ _ _ _).mp h2
      simp only [Option.none_bind]
      constructor
      · intro _
        exact Or.inr (Or.inl (by omega))
      · intro _
        trivial
    · have h2' : ¬ 3 ≤ (bits >>> 2) &&& 3 := by
        intro hc
        rw [(addSlot_eq_none _ _ _ _).mpr hc] at h2
        exact Option.noConfusion h2
      have hne2 : ¬ (bits >>> 2) &&& 3 = 3 := by omega
      simp only [h2, Option.some_bind]
      rw [addSlot_eq_none]
      constructor
      · intro hc
        exact Or.inr (Or.inr (by omega))
      · intro hc
        rcases hc with hc | hc | hc
        · exact absurd hc hne1
        · exact absurd hc hne2
        · omega

theorem decodeFold_none (e : Nat) (qs : List Pos) :
    qs.foldl (decodeStep e) none = none := by
  induction qs with
  | nil => rfl
  | cons q rest ih =>
    simp only [List.foldl_cons]
    exact ih

theorem decodeFold_eq_none_iff (e : Nat) (qs : List Pos) :
    ∀ (s : GameState) (k : Nat),
      qs.foldl (decodeStep e) (some (s, k)) = none ↔
        ∃ j, j < qs.length ∧ slotBad ((e >>> (k + 6 * j)) &&& 63) := by
  induction qs with
  | nil =>
    intro s k
    simp
  | cons q0 rest ih =>
    intro s k
    simp only [List.foldl_cons]
    rcases hres : decodeCellInto s q0 ((e >>> k) &&& 63) with _ | s1
    · have hbad : slotBad ((e >>> k) &&& 63) := (decodeCellInto_eq_none_iff _ _ _).mp hres
      have hnone : decodeStep e (some (s, k)) q0 = none := by
        show (decodeCellInto s q0 ((e >>> k) &&& 63)).map (fun s' => (s', k + 6)) = none
        rw [hres]
        rfl
      rw [hnone, decodeFold_none]
      constructor
      · intro _
        exact ⟨0, by simp, by simpa using hbad⟩
      · intro _
        rfl
    · have hgood : ¬ slotBad ((e >>> k) &&& 63) := by
        intro hc
        rw [(decodeCellInto_eq_none_iff _ _ _).mpr hc] at hres
        exact Option.noConfusion hres
      have hstep : decodeStep e (some (s, k)) q0 = some (s1, k + 6) := by
        show (decodeCellInto s q0 ((e >>> k) &&& 63)).map (fun s' => (s', k + 6)) = _
        rw [hres]
        rfl
      rw [hstep, ih s1 (k + 6)]
      constructor
      · rintro ⟨j, hj, hb⟩
        refine ⟨j + 1, by simp only [List.length_cons]; omega, ?_⟩
        have harg : k + 6 * (j + 1) = k + 6 + 6 * j := by ring
        rw [harg]
        exact hb
      · rintro ⟨j, hj, hb⟩
        cases j with
        | zero =>
          exact absurd (by simpa using hb) hgood
        | succ j =>
          refine ⟨j, by simp only [List.length_cons] at hj; omega, ?_⟩
          have harg : k + 6 * (j + 1) = k + 6 + 6 * j := by ring
          rw [harg] at hb
          exact hb

/-- C9 (amended): `decode_state` rejects exactly the encodings in which
some cell has an owner slot equal to `3` (the `Player(3)` `ValueError`);
it performs no other validation. -/
theorem decodeState_eq_none_iff (e : Nat) :
    decodeState e = none ↔ HasInvalidSlot e := by
  unfold decodeState
  constructor
  · intro h
    have hf : allPositions.foldl (decodeStep e) (some (GameState.init, 0)) = none := by
      rcases hx : allPositions.foldl (decodeStep e) (some (GameState.init, 0)) with _ | v
      · rfl
      · rw [hx] at h
        exact Option.noConfusion h
    obtain ⟨j, hj, hb⟩ := (decodeFold_eq_none_iff e allPositions GameState.init 0).mp hf
    have hj9 : j < 9 := by simpa [allPositions] using hj
    exact ⟨⟨j, hj9⟩, by simpa [cellAt] using hb⟩
  · rintro ⟨i, hb⟩
    have hf := (decodeFold_eq_none_iff e allPositions GameState.init 0).mpr
      ⟨(i : Nat), by simpa [allPositions] using i.isLt, by simpa [cellAt] using hb⟩
    rw [hf]
    rfl

/-- C9 counterexample: the encoding `4161` places three small
player-one pieces on the board — a state the invariants forbid (it forces
the player-one small reserve to `-1`) — yet `decode_state` does not fail:
it returns that state, negative reserve included.  There is no
`InvalidEncoding` error anywhere in the code. -/
theorem decode_invalid_board_succeeds :
    (decodeState 4161).isSome = true ∧
      ((decodeState 4161).map fun s => s.reserves Player.one Size.small) = some (-1) ∧
      ((decodeState 4161).map fun s => onBoardCount s Player.one Size.small) = some 3 := by
  refine ⟨by decide, by decide, by decide⟩

/-! ## Cell-level characterization of the symmetry transforms -/

theorem cellAt_shiftLeft_ite {c : Nat} (hc : c < 64) {k : Nat} (j : Nat) (hk : k % 6 = 0) :
    cellAt (c <<< k) j = if k = 6 * j then c else 0 := by
  by_cases h : k = 6 * j
  · rw [if_pos h]
    exact cellAt_shiftLeft_eq hc k j h
  · rw [if_neg h]
    rcases Nat.lt_or_ge (6 * j) k with hlt | hge
    · have h6 : 6 * j + 6 ≤ k := by omega
      exact cellAt_shiftLeft_gt c h6
    · have h6 : k + 6 ≤ 6 * j := by omega
      exact cellAt_shiftLeft_lt hc h6

theorem cellAt_rotate90 (e : Nat) {j : Nat} (hj : j < 9) :
    cellAt (rotate90 e) j = cellAt e (rotIdx.getD j 0) := by
  have hterm : ∀ (x k : Nat), k % 6 = 0 →
      cellAt ((x &&& 63) <<< k) j = if k = 6 * j then x &&& 63 else 0 :=
    fun x k hk => cellAt_shiftLeft_ite (and_63_lt x) j hk
  have hpb : (e >>> 54) &&& 1 < 64 := by
    have h : (e >>> 54) &&& 1 ≤ 1 := Nat.and_le_right
    omega
  have hplayer : cellAt (((e >>> 54) &&& 1) <<< 54) j =
      if 54 = 6 * j then (e >>> 54) &&& 1 else 0 :=
    cellAt_shiftLeft_ite hpb j (by norm_num)
  have hmod : e >>> 54 % 2 < 64 := by
    have h := Nat.mod_lt (e >>> 54) (show 0 < 2 by norm_num)
    omega
  have hplayer2 : cellAt ((e >>> 54 % 2) <<< 54) j = if 54 = 6 * j then e >>> 54 % 2 else 0 :=
    cellAt_shiftLeft_ite hmod j (by norm_num)
  have hzero : ∀ x : Nat, 1 ≤ j → cellAt (x &&& 63) j = 0 :=
    fun x hj1 => cellAt_small (and_63_lt x) hj1
  have hzeroj : ∀ x : Nat, cellAt (x &&& 63) 0 = x &&& 63 :=
    fun x => cellAt_small_zero (and_63_lt x)
  interval_cases j <;>
  · simp only [rotate90, natCells, List.foldl_cons, List.foldl_nil, cellAt_lor, cellAt_zero,
      Nat.zero_or]
    norm_num [hterm, hplayer, hplayer2, hzero, hzeroj]
    rfl

theorem cellAt_reflect (e : Nat) {j : Nat} (hj : j < 9) :
    cellAt (reflectHorizontal e) j = cellAt e (reflIdx.getD j 0) := by
  have hterm : ∀ (x k : Nat), k % 6 = 0 →
      cellAt ((x &&& 63) <<< k) j = if k = 6 * j then x &&& 63 else 0 :=
    fun x k hk => cellAt_shiftLeft_ite (and_63_lt x) j hk
  have hpb : (e >>> 54) &&& 1 < 64 := by
    have h : (e >>> 54) &&& 1 ≤ 1 := Nat.and_le_right
    omega
  have hplayer : cellAt (((e >>> 54) &&& 1) <<< 54) j =
      if 54 = 6 * j then (e >>> 54) &&& 1 else 0 :=
    cellAt_shiftLeft_ite hpb j (by norm_num)
  have hmod : e >>> 54 % 2 < 64 := by
    have h := Nat.mod_lt (e >>> 54) (show 0 < 2 by norm_num)
    omega
  have hplayer2 : cellAt ((e >>> 54 % 2) <<< 54) j = if 54 = 6 * j then e >>> 54 % 2 else 0 :=
    cellAt_shiftLeft_ite hmod j (by norm_num)
  have hzero : ∀ x : Nat, 1 ≤ j → cellAt (x &&& 63) j = 0 :=
    fun x hj1 => cellAt_small (and_63_lt x) hj1
  have hzeroj : ∀ x : Nat, cellAt (x &&& 63) 0 = x &&& 63 :=
    fun x => cellAt_small_zero (and_63_lt x)
  interval_cases j <;>
  · simp only [reflectHorizontal, natCells, List.foldl_cons, List.foldl_nil, cellAt_lor,
      cellAt_zero, Nat.zero_or]
    norm_num [hterm, hplayer, hplayer2, hzero, hzeroj]
    rfl

theorem bit54_rotate90 (e : Nat) : bit54 (rotate90 e) = bit54 e := by
  have hsmall : ∀ (x k : Nat), k + 6 ≤ 54 → bit54 ((x &&& 63) <<< k) = 0 :=
    fun x k hk => bit54_shiftLeft_small (and_63_lt x) hk
  have hp : bit54 (((e >>> 54) &&& 1) <<< 54) = (e >>> 54) &&& 1 :=
    bit54_shiftLeft_54 Nat.and_le_right
  have hmod : e >>> 54 % 2 ≤ 1 := by
    have h := Nat.mod_lt (e >>> 54) (show 0 < 2 by norm_num)
    omega
  have hp2 : bit54 ((e >>> 54 % 2) <<< 54) = e >>> 54 % 2 := bit54_shiftLeft_54 hmod
  have hz : ∀ x : Nat, bit54 (x &&& 63) = 0 := by
    intro x
    unfold bit54
    rw [Nat.shiftRight_eq_div_pow]
    have hx : x &&& 63 < 64 := and_63_lt x
    have hd : (x &&& 63) / 2 ^ 54 = 0 := Nat.div_eq_of_lt (by
      calc x &&& 63 < 64 := hx
        _ ≤ 2 ^ 54 := by norm_num)
    rw [hd]
    rfl
  simp only [rotate90, natCells, List.foldl_cons, List.foldl_nil, bit54_lor, bit54_zero,
    Nat.zero_or]
  norm_num [hsmall, hp, hp2, hz]
  unfold bit54
  rw [Nat.and_one_is_mod]

theorem bit54_reflect (e : Nat) : bit54 (reflectHorizontal e) = bit54 e := by
  have hsmall : ∀ (x k : Nat), k + 6 ≤ 54 → bit54 ((x &&& 63) <<< k) = 0 :=
    fun x k hk => bit54_shiftLeft_small (and_63_lt x) hk
  have hp : bit54 (((e >>> 54) &&& 1) <<< 54) = (e >>> 54) &&& 1 :=
    bit54_shiftLeft_54 Nat.and_le_right
  have hmod : e >>> 54 % 2 ≤ 1 := by
    have h := Nat.mod_lt (e >>> 54) (show 0 < 2 by norm_num)
    omega
  have hp2 : bit54 ((e >>> 54 % 2) <<< 54) = e >>> 54 % 2 := bit54_shiftLeft_54 hmod
  have hz : ∀ x : Nat, bit54 (x &&& 63) = 0 := by
    intro x
    unfold bit54
    rw [Nat.shiftRight_eq_div_pow]
    have hx : x &&& 63 < 64 := and_63_lt x
    have hd : (x &&& 63) / 2 ^ 54 = 0 := Nat.div_eq_of_lt (by
      calc x &&& 63 < 64 := hx
        _ ≤ 2 ^ 54 := by norm_num)
    rw [hd]
    rfl
  simp only [reflectHorizontal, natCells, List.foldl_cons, List.foldl_nil, bit54_lor,
    bit54_zero, Nat.zero_or]
  norm_num [hsmall, hp, hp2, hz]
  unfold bit54
  rw [Nat.and_one_is_mod]

theorem orFoldl_lt {A : Type} (g : A → Nat) :
    ∀ (l : List A) (acc : Nat), acc < 2 ^ 55 → (∀ a ∈ l, g a < 2 ^ 55) →
      l.foldl (fun acc a => acc ||| g a) acc < 2 ^ 55 := by
  intro l
  induction l with
  | nil =>
    intro acc hacc _
    simpa using hacc
  | cons a rest ih =>
    intro acc hacc hl
    simp only [List.foldl_cons]
    exact ih _ (lor_lt_two_pow hacc (hl a (List.mem_cons_self _ _)))
      (fun x hx => hl x (List.mem_cons_of_mem _ hx))

theorem rotate90_lt (e : Nat) : rotate90 e < 2 ^ 55 := by
  have ht : ∀ (x k : Nat), k + 6 ≤ 55 → (x &&& 63) <<< k < 2 ^ 55 :=
    fun x k hk => shiftLeft_lt_two_pow_55 (and_63_lt x) hk
  have hp : ((e >>> 54) &&& 1) <<< 54 < 2 ^ 55 := by
    rw [Nat.shiftLeft_eq]
    have h1 : (e >>> 54) &&& 1 ≤ 1 := Nat.and_le_right
    have h2 : ((e >>> 54) &&& 1) * 2 ^ 54 ≤ 1 * 2 ^ 54 := Nat.mul_le_mul_right _ h1
    have h3 : (1 : Nat) * 2 ^ 54 < 2 ^ 55 := by norm_num
    omega
  simp only [rotate90]
  refine lor_lt_two_pow ?_ hp
  apply orFoldl_lt
  · norm_num
  · intro rc hrc
    fin_cases hrc <;> exact shiftLeft_lt_two_pow_55 (and_63_lt _) (by norm_num)

theorem reflect_lt_two_pow (e : Nat) : reflectHorizontal e < 2 ^ 55 := by
  have ht : ∀ (x k : Nat), k + 6 ≤ 55 → (x &&& 63) <<< k < 2 ^ 55 :=
    fun x k hk => shiftLeft_lt_two_pow_55 (and_63_lt x) hk
  have hp : ((e >>> 54) &&& 1) <<< 54 < 2 ^ 55 := by
    rw [Nat.shiftLeft_eq]
    have h1 : (e >>> 54) &&& 1 ≤ 1 := Nat.and_le_right
    have h2 : ((e >>> 54) &&& 1) * 2 ^ 54 ≤ 1 * 2 ^ 54 := Nat.mul_le_mul_right _ h1
    have h3 : (1 : Nat) * 2 ^ 54 < 2 ^ 55 := by norm_num
    omega
  simp only [reflectHorizontal]
  refine lor_lt_two_pow ?_ hp
  apply orFoldl_lt
  · norm_num
  · intro rc hrc
    fin_cases hrc <;> exact shiftLeft_lt_two_pow_55 (and_63_lt _) (by norm_num)

/-! ## The dihedral group acting on encodings -/

theorem rotate90_four (e : Nat) (he : e < 2 ^ 55) :
    rotate90 (rotate90 (rotate90 (rotate90 e))) = e := by
  apply eq_of_parts_eq (rotate90_lt _) he
  · intro i hi
    interval_cases i <;>
    · rw [cellAt_rotate90 _ (by norm_num), cellAt_rotate90 _ (by decide),
        cellAt_rotate90 _ (by decide), cellAt_rotate90 _ (by decide)]
      congr 1
  · rw [bit54_rotate90, bit54_rotate90, bit54_rotate90, bit54_rotate90]

theorem reflect_reflect (e : Nat) (he : e < 2 ^ 55) :
    reflectHorizontal (reflectHorizontal e) = e := by
  apply eq_of_parts_eq (reflect_lt_two_pow _) he
  · intro i hi
    interval_cases i <;>
    · rw [cellAt_reflect _ (by norm_num), cellAt_reflect _ (by decide)]
      congr 1
  · rw [bit54_reflect, bit54_reflect]

theorem rotate_reflect (x : Nat) :
    rotate90 (reflectHorizontal x) =
      reflectHorizontal (rotate90 (rotate90 (rotate90 x))) := by
  apply eq_of_parts_eq (rotate90_lt _) (reflect_lt_two_pow _)
  · intro i hi
    interval_cases i <;>
    · rw [cellAt_rotate90 _ (by norm_num), cellAt_reflect _ (by decide),
        cellAt_reflect _ (by norm_num), cellAt_rotate90 _ (by decide),
        cellAt_rotate90 _ (by decide), cellAt_rotate90 _ (by decide)]
      congr 1
  · simp only [bit54_rotate90, bit54_reflect]

theorem reflect_reflect_rot (x : Nat) :
    reflectHorizontal (reflectHorizontal (rotate90 x)) = rotate90 x :=
  reflect_reflect _ (rotate90_lt x)

/-! ## `canonicalize` as a minimum -/

theorem getAllSymmetries_eq (e : Nat) :
    getAllSymmetries e =
      e :: [reflectHorizontal e, rotate90 e, reflectHorizontal (rotate90 e),
        rotate90 (rotate90 e), reflectHorizontal (rotate90 (rotate90 e)),
        rotate90 (rotate90 (rotate90 e)),
        reflectHorizontal (rotate90 (rotate90 (rotate90 e)))] := rfl

theorem canonicalize_eq (e : Nat) :
    canonicalize e =
      [reflectHorizontal e, rotate90 e, reflectHorizontal (rotate90 e),
        rotate90 (rotate90 e), reflectHorizontal (rotate90 (rotate90 e)),
        rotate90 (rotate90 (rotate90 e)),
        reflectHorizontal (rotate90 (rotate90 (rotate90 e)))].foldl Nat.min e := rfl

theorem foldlMin_le : ∀ (l : List Nat) (a x : Nat), x ∈ a :: l → l.foldl Nat.min a ≤ x := by
  intro l
  induction l with
  | nil =>
    intro a x hx
    simp only [List.mem_cons, List.not_mem_nil, or_false] at hx
    subst hx
    simp
  | cons b rest ih =>
    intro a x hx
    simp only [List.foldl_cons]
    rcases List.mem_cons.mp hx with rfl | hx'
    · exact le_trans (ih (Nat.min x b) _ (List.mem_cons_self _ _)) (Nat.min_le_left x b)
    · rcases List.mem_cons.mp hx' with rfl | hx''
      · exact le_trans (ih (Nat.min a x) _ (List.mem_cons_self _ _)) (Nat.min_le_right a x)
      · exact ih (Nat.min a b) x (List.mem_cons_of_mem _ hx'')

theorem foldlMin_mem : ∀ (l : List Nat) (a : Nat), l.foldl Nat.min a ∈ a :: l := by
  intro l
  induction l with
  | nil => intro a; simp
  | cons b rest ih =>
    intro a
    simp only [List.foldl_cons]
    have hm : Nat.min a b = a ∨ Nat.min a b = b := by
      rcases Nat.le_total a b with h | h
      · exact Or.inl (Nat.min_eq_left h)
      · exact Or.inr (Nat.min_eq_right h)
    rcases List.mem_cons.mp (ih (Nat.min a b)) with heq | hmem
    · rcases hm with hm | hm
      · rw [heq, hm]
        exact List.mem_cons_self _ _
      · rw [heq, hm]
        exact List.mem_cons_of_mem _ (List.mem_cons_self _ _)
    · exact List.mem_cons_of_mem _ (List.mem_cons_of_mem _ hmem)

theorem canonicalize_mem (e : Nat) : canonicalize e ∈ getAllSymmetries e := by
  rw [canonicalize_eq, getAllSymmetries_eq]
  exact foldlMin_mem _ e

theorem canonicalize_le (e : Nat) : ∀ x ∈ getAllSymmetries e, canonicalize e ≤ x := by
  intro x hx
  rw [getAllSymmetries_eq] at hx
  rw [canonicalize_eq]
  exact foldlMin_le _ e x hx

theorem mem_symmetries_rotate (e : Nat) (he : e < 2 ^ 55) (x : Nat) :
    x ∈ getAllSymmetries (rotate90 e) ↔ x ∈ getAllSymmetries e := by
  rw [getAllSymmetries_eq, getAllSymmetries_eq]
  simp only [List.mem_cons, List.not_mem_nil, or_false]
  rw [rotate90_four e he]
  constructor
  · rintro (h | h | h | h | h | h | h | h)
    · exact Or.inr <| Or.inr <| Or.inl h
    · exact Or.inr <| Or.inr <| Or.inr <| Or.inl h
    · exact Or.inr <| Or.inr <| Or.inr <| Or.inr <| Or.inl h
    · exact Or.inr <| Or.inr <| Or.inr <| Or.inr <| Or.inr <| Or.inl h
    · exact Or.inr <| Or.inr <| Or.inr <| Or.inr <| Or.inr <| Or.inr <| Or.inl h
    · exact Or.inr <| Or.inr <| Or.inr <| Or.inr <| Or.inr <| Or.inr <| Or.inr h
    · exact Or.inl h
    · exact Or.inr <| Or.inl h
  · rintro (h | h | h | h | h | h | h | h)
    · exact Or.inr <| Or.inr <| Or.inr <| Or.inr <| Or.inr <| Or.inr <| Or.inl h
    · exact Or.inr <| Or.inr <| Or.inr <| Or.inr <| Or.inr <| Or.inr <| Or.inr h
    · exact Or.inl h
    · exact Or.inr <| Or.inl h
    · exact Or.inr <| Or.inr <| Or.inl h
    · exact Or.inr <| Or.inr <| Or.inr <| Or.inl h
    · exact Or.inr <| Or.inr <| Or.inr <| Or.inr <| Or.inl h
    · exact Or.inr <| Or.inr <| Or.inr <| Or.inr <| Or.inr <| Or.inl h

theorem mem_symmetries_reflect (e : Nat) (he : e < 2 ^ 55) (x : Nat) :
    x ∈ getAllSymmetries (reflectHorizontal e) ↔ x ∈ getAllSymmetries e := by
  rw [getAllSymmetries_eq, getAllSymmetries_eq]
  simp only [List.mem_cons, List.not_mem_nil, or_false]
  simp only [rotate_reflect]
  simp only [reflect_reflect_rot]
  rw [rotate90_four e he, rotate90_four e he]
  rw [reflect_reflect e he]
  constructor
  · rintro (h | h | h | h | h | h | h | h)
    · exact Or.inr <| Or.inl h
    · exact Or.inl h
    · exact Or.inr <| Or.inr <| Or.inr <| Or.inr <| Or.inr <| Or.inr <| Or.inr h
    · exact Or.inr <| Or.inr <| Or.inr <| Or.inr <| Or.inr <| Or.inr <| Or.inl h
    · exact Or.inr <| Or.inr <| Or.inr <| Or.inr <| Or.inr <| Or.inl h
    · exact Or.inr <| Or.inr <| Or.inr <| Or.inr <| Or.inl h
    · exact Or.inr <| Or.inr <| Or.inr <| Or.inl h
    · exact Or.inr <| Or.inr <| Or.inl h
  · rintro (h | h | h | h | h | h | h | h)
    · exact Or.inr <| Or.inl h
    · exact Or.inl h
    · exact Or.inr <| Or.inr <| Or.inr <| Or.inr <| Or.inr <| Or.inr <| Or.inr h
    · exact Or.inr <| Or.inr <| Or.inr <| Or.inr <| Or.inr <| Or.inr <| Or.inl h
    · exact Or.inr <| Or.inr <| Or.inr <| Or.inr <| Or.inr <| Or.inl h
    · exact Or.inr <| Or.inr <| Or.inr <| Or.inr <| Or.inl h
    · exact Or.inr <| Or.inr <| Or.inr <| Or.inl h
    · exact Or.inr <| Or.inr <| Or.inl h

theorem canonicalize_rotate (e : Nat) (he : e < 2 ^ 55) :
    canonicalize (rotate90 e) = canonicalize e := by
  apply Nat.le_antisymm
  · exact canonicalize_le (rotate90 e) _ ((mem_symmetries_rotate e he _).mpr (canonicalize_mem e))
  · exact canonicalize_le e _ ((mem_symmetries_rotate e he _).mp (canonicalize_mem (rotate90 e)))

theorem canonicalize_reflect (e : Nat) (he : e < 2 ^ 55) :
    canonicalize (reflectHorizontal e) = canonicalize e := by
  apply Nat.le_antisymm
  · exact canonicalize_le (reflectHorizontal e) _
      ((mem_symmetries_reflect e he _).mpr (canonicalize_mem e))
  · exact canonicalize_le e _
      ((mem_symmetries_reflect e he _).mp (canonicalize_mem (reflectHorizontal e)))

/-! ## `encode_state` commutes with the board symmetries -/

theorem encode_rotateState (s : GameState) :
    encodeState (rotateState s) = rotate90 (encodeState s) := by
  apply eq_of_parts_eq (encodeState_lt _) (rotate90_lt _)
  · intro i hi
    interval_cases i <;>
    · rw [cellAt_encodeState _ (by norm_num), cellAt_rotate90 _ (by norm_num),
        cellAt_encodeState _ (by decide)]
      rfl
  · rw [bit54_rotate90, bit54_encodeState, bit54_encodeState]
    rfl

theorem encode_reflectState (s : GameState) :
    encodeState (reflectState s) = reflectHorizontal (encodeState s) := by
  apply eq_of_parts_eq (encodeState_lt _) (reflect_lt_two_pow _)
  · intro i hi
    interval_cases i <;>
    · rw [cellAt_encodeState _ (by norm_num), cellAt_reflect _ (by norm_num),
        cellAt_encodeState _ (by decide)]
      rfl
  · rw [bit54_reflect, bit54_encodeState, bit54_encodeState]
    rfl

/-- C6: `canonicalize` is constant on D₄ orbits — for every position `p`
and every transform `t` in the group generated by the 90° rotation and the
horizontal reflection, the canonical keys of `p` and `t p` agree — and it
is idempotent on every 55-bit encoding (the encoding format occupies bits
0–54, and every value `encode_state` produces is below `2^55`). -/
theorem canonicalize_d4_invariant :
    (∀ (p : GameState) (t : GameState → GameState), IsD4 t →
        canonicalize (encodeState p) = canonicalize (encodeState (t p))) ∧
      ∀ e : Nat, e < 2 ^ 55 → canonicalize (canonicalize e) = canonicalize e := by
  constructor
  · intro p t ht
    induction ht with
    | id => rfl
    | rot hf ih =>
      rename_i g
      show canonicalize (encodeState p) = canonicalize (encodeState (rotateState (g p)))
      rw [encode_rotateState, canonicalize_rotate _ (encodeState_lt _)]
      exact ih
    | refl hf ih =>
      rename_i g
      show canonicalize (encodeState p) = canonicalize (encodeState (reflectState (g p)))
      rw [encode_reflectState, canonicalize_reflect _ (encodeState_lt _)]
      exact ih
  · intro e he
    have hmem := canonicalize_mem e
    rw [getAllSymmetries_eq] at hmem
    simp only [List.mem_cons, List.not_mem_nil, or_false] at hmem
    rcases hmem with h | h | h | h | h | h | h | h
    · rw [h]
      exact h
    · rw [h, canonicalize_reflect e he]
      exact h
    · rw [h, canonicalize_rotate e he]
      exact h
    · rw [h, canonicalize_reflect _ (rotate90_lt _), canonicalize_rotate e he]
      exact h
    · rw [h, canonicalize_rotate _ (rotate90_lt _), canonicalize_rotate e he]
      exact h
    · rw [h, canonicalize_reflect _ (rotate90_lt _), canonicalize_rotate _ (rotate90_lt _),
        canonicalize_rotate e he]
      exact h
    · rw [h, canonicalize_rotate _ (rotate90_lt _), canonicalize_rotate _ (rotate90_lt _),
        canonicalize_rotate e he]
      exact h
    · rw [h, canonicalize_reflect _ (rotate90_lt _), canonicalize_rotate _ (rotate90_lt _),
        canonicalize_rotate _ (rotate90_lt _), canonicalize_rotate e he]
      exact h

theorem canonicalize_d4_invariant_witness :
    IsD4 rotateState ∧ (129 : Nat) < 2 ^ 55 ∧
      canonicalize (encodeState R1) = canonicalize (encodeState (rotateState R1)) ∧
      canonicalize (canonicalize 129) = canonicalize 129 :=
  ⟨IsD4.rot IsD4.id, by norm_num,
    canonicalize_d4_invariant.1 R1 rotateState (IsD4.rot IsD4.id),
    canonicalize_d4_invariant.2 129 (by norm_num)⟩

/-! ## BFS frontier depths -/

theorem option_eq_of_decide {A : Type} [DecidableEq A] (o : Option A) (a : A)
    (h : o.map (fun x => decide (x = a)) = some true) : o = some a := by
  rcases o with _ | x
  · exact Option.noConfusion h
  · simp only [Option.map_some'] at h
    have h2 := Option.some.inj h
    simp only [decide_eq_true_eq] at h2
    subst h2
    rfl

theorem option_triple_eq {A B C : Type} [DecidableEq A] [DecidableEq B] [DecidableEq C]
    (o : Option (A × B × C)) (a : A) (b : B) (c : C)
    (h : o.map (fun r => decide (r.1 = a) && (decide (r.2.1 = b) && decide (r.2.2 = c))) =
      some true) : o = some (a, b, c) := by
  rcases o with _ | ⟨x, y, z⟩
  · exact Option.noConfusion h
  · simp only [Option.map_some'] at h
    have h2 := Option.some.inj h
    simp only [Bool.and_eq_true, decide_eq_true_eq] at h2
    obtain ⟨rfl, rfl, rfl⟩ := h2
    rfl

/-- C8 counterexample: with the partially solved table `bfsTable`, the
BFS enumerator completes and records the canonical key of `stateC` at
depth 4, although `stateC` is reachable from the root in 2 moves (place a
small piece on the centre, then a small reply on the north edge).  The
recorded depth is minimal only over paths whose interior positions are in
the table, not over all move paths. -/
theorem bfs_depth_not_minimal :
    (∃ frontier, enumerateAllUnsolvedWithDepth bfsTable 50 = some frontier ∧
        (canonicalizeState stateC, 4) ∈ frontier) ∧
      PathN 2 (canonicalize (encodeState GameState.init)) (canonicalizeState stateC) := by
  constructor
  · exact ⟨bfsFrontier, by decide, by decide⟩
  · refine ⟨canonicalize (encodeState bfsMid),
      ⟨GameState.init, bfsMoveA, ⟨bfsMoveA, ⟨.one, .small⟩, true, true⟩, bfsMid,
        option_eq_of_decide _ _ (by decide), by decide,
        option_triple_eq _ _ _ _ (by decide), by decide⟩,
      canonicalizeState stateC,
      ⟨bfsMid, bfsMoveB, ⟨bfsMoveB, ⟨.two, .small⟩, true, true⟩, stateC,
        option_eq_of_decide _ _ (by decide), by decide,
        option_triple_eq _ _ _ _ (by decide), by decide⟩,
      rfl⟩

/-! ## Solved-interior paths: extension and decomposition -/

theorem solvedPathN_snoc (table : Table) :
    ∀ (n : Nat) (R e c : Nat), SolvedPathN table n R e →
      (n = 0 ∨ (lookupTable table e).isSome = true) → canonicalStep e c →
      SolvedPathN table (n + 1) R c := by
  intro n
  induction n with
  | zero =>
    intro R e c hp _ hs
    have he : R = e := hp
    subst he
    exact ⟨c, hs, Or.inl rfl, rfl⟩
  | succ k ih =>
    intro R e c hp hcond hs
    obtain ⟨mid, hstep, hc, hrest⟩ := hp
    have hcond' : k = 0 ∨ (lookupTable table e).isSome = true := by
      rcases hcond with h | h
      · exact absurd h (Nat.succ_ne_zero k)
      · exact Or.inr h
    have hmidtable : (lookupTable table mid).isSome = true := by
      rcases hc with hk | hmid
      · subst hk
        have : mid = e := hrest
        subst this
        rcases hcond with h | h
        · exact absurd h (Nat.succ_ne_zero 0)
        · exact h
      · exact hmid
    exact ⟨mid, hstep, Or.inr hmidtable, ih mid e c hrest hcond' hs⟩

theorem solvedPathN_unsnoc (table : Table) :
    ∀ (m : Nat) (R c : Nat), SolvedPathN table (m + 1) R c →
      ∃ p, SolvedPathN table m R p ∧ (m = 0 ∨ (lookupTable table p).isSome = true) ∧
        canonicalStep p c := by
  intro m
  induction m with
  | zero =>
    intro R c hp
    obtain ⟨mid, hstep, _, hrest⟩ := hp
    have : mid = c := hrest
    subst this
    exact ⟨R, rfl, Or.inl rfl, hstep⟩
  | succ k ih =>
    intro R c hp
    obtain ⟨mid, hstep, hc, hrest⟩ := hp
    obtain ⟨p, hpath, hpcond, hpstep⟩ := ih mid c hrest
    have hmidtable : (lookupTable table mid).isSome = true := by
      rcases hc with hk | hmid
      · exact absurd hk (Nat.succ_ne_zero k)
      · exact hmid
    have hptable : (lookupTable table p).isSome = true := by
      rcases hpcond with hk | hpt
      · subst hk
        have : mid = p := hpath
        subst this
        exact hmidtable
      · exact hpt
    exact ⟨p, ⟨mid, hstep, Or.inr hmidtable, hpath⟩, Or.inr hptable, hpstep⟩

/-! ## Behaviour of one enumerator step -/

theorem apply_undo_eq (s : GameState) (m : Move) (hm : m ∈ generateMoves s)
    (r : GameResult) (u : UndoInfo) (s' : GameState)
    (h : applyMoveInPlace s m = some (r, u, s')) : undoMoveInPlace s' u = s := by
  obtain ⟨r0, u0, s0', h1, h2⟩ := applyUndo_roundtrip s m hm
  rw [h] at h1
  have h3 := Option.some.inj h1
  simp only [Prod.mk.injEq] at h3
  obtain ⟨h4, h5, h6⟩ := h3
  subst h4
  subst h5
  subst h6
  exact h2

theorem enumerateStep_not_ongoing (table : Table) (dep : Nat) (st : GameState)
    (vis : List Nat) (uns nq : List (Nat × Nat)) (m : Move) (result : GameResult)
    (undo : UndoInfo) (st' : GameState)
    (happ : applyMoveInPlace st m = some (result, undo, st'))
    (hr : ¬ result = GameResult.ongoing) :
    enumerateStep table dep (some (st, vis, uns, nq)) m =
      some (undoMoveInPlace st' undo, vis, uns, nq) := by
  show (applyMoveInPlace st m).map _ = _
  rw [happ]
  simp only [Option.map_some']
  rw [if_neg hr]

theorem enumerateStep_seen (table : Table) (dep : Nat) (st : GameState)
    (vis : List Nat) (uns nq : List (Nat × Nat)) (m : Move)
    (undo : UndoInfo) (st' : GameState)
    (happ : applyMoveInPlace st m = some (GameResult.ongoing, undo, st'))
    (hv : vis.contains (canonicalize (encodeState st')) = true) :
    enumerateStep table dep (some (st, vis, uns, nq)) m =
      some (undoMoveInPlace st' undo, vis, uns, nq) := by
  show (applyMoveInPlace st m).map _ = _
  rw [happ]
  simp only [Option.map_some', if_true]
  rw [if_pos hv]

theorem enumerateStep_queued (table : Table) (dep : Nat) (st : GameState)
    (vis : List Nat) (uns nq : List (Nat × Nat)) (m : Move)
    (undo : UndoInfo) (st' : GameState)
    (happ : applyMoveInPlace st m = some (GameResult.ongoing, undo, st'))
    (hv : vis.contains (canonicalize (encodeState st')) = false)
    (ht : (lookupTable table (canonicalize (encodeState st'))).isSome = true) :
    enumerateStep table dep (some (st, vis, uns, nq)) m =
      some (undoMoveInPlace st' undo, vis ++ [canonicalize (encodeState st')], uns,
        nq ++ [(canonicalize (encodeState st'), dep + 1)]) := by
  show (applyMoveInPlace st m).map _ = _
  rw [happ]
  simp only [Option.map_some', if_true]
  rw [if_neg (by rw [hv]; exact Bool.false_ne_true), if_pos ht]

theorem enumerateStep_fresh (table : Table) (dep : Nat) (st : GameState)
    (vis : List Nat) (uns nq : List (Nat × Nat)) (m : Move)
    (undo : UndoInfo) (st' : GameState)
    (happ : applyMoveInPlace st m = some (GameResult.ongoing, undo, st'))
    (hv : vis.contains (canonicalize (encodeState st')) = false)
    (ht : lookupTable table (canonicalize (encodeState st')) = none) :
    enumerateStep table dep (some (st, vis, uns, nq)) m =
      some (undoMoveInPlace st' undo, vis ++ [canonicalize (encodeState st')],
        uns ++ [(canonicalize (encodeState st'), dep + 1)], nq) := by
  show (applyMoveInPlace st m).map _ = _
  rw [happ]
  simp only [Option.map_some', if_true]
  rw [if_neg (by rw [hv]; exact Bool.false_ne_true),
    if_neg (by rw [ht]; exact Bool.false_ne_true)]

theorem enumerateStep_none_apply (table : Table) (dep : Nat) (st : GameState)
    (vis : List Nat) (uns nq : List (Nat × Nat)) (m : Move)
    (happ : applyMoveInPlace st m = none) :
    enumerateStep table dep (some (st, vis, uns, nq)) m = none := by
  show (applyMoveInPlace st m).map _ = _
  rw [happ]
  rfl

theorem enumerateFold_none (table : Table) (dep : Nat) (ms : List Move) :
    ms.foldl (enumerateStep table dep) none = none := by
  induction ms with
  | nil => rfl
  | cons m rest ih =>
    simp only [List.foldl_cons]
    exact ih

/-- Full characterization of the per-node move fold: the visited list
grows exactly by fresh ongoing children, every fresh child lands in the
frontier or the queue additions according to table membership, and every
ongoing child is visited afterwards. -/
theorem enumerateFold_spec (table : Table) (dep : Nat) (e : Nat) (s0 : GameState)
    (hdec : decodeState e = some s0) :
    ∀ (ms : List Move), (∀ m ∈ ms, m ∈ generateMoves s0) →
    ∀ (vis : List Nat) (uns nq : List (Nat × Nat))
      (res : GameState × List Nat × List (Nat × Nat) × List (Nat × Nat)),
      ms.foldl (enumerateStep table dep) (some (s0, vis, uns, nq)) = some res →
      (∀ x ∈ vis, x ∈ res.2.1) ∧
      (∀ x ∈ res.2.1, x ∈ vis ∨ (canonicalStep e x ∧ x ∉ vis ∧
        ((lookupTable table x).isSome = true → (x, dep + 1) ∈ res.2.2.2) ∧
        (lookupTable table x = none → (x, dep + 1) ∈ res.2.2.1))) ∧
      (∀ pr ∈ res.2.2.1, pr ∈ uns ∨ (canonicalStep e pr.1 ∧ pr.2 = dep + 1 ∧
        lookupTable table pr.1 = none ∧ pr.1 ∉ vis)) ∧
      (∀ pr ∈ uns, pr ∈ res.2.2.1) ∧
      (∀ pr ∈ res.2.2.2, pr ∈ nq ∨ (canonicalStep e pr.1 ∧ pr.2 = dep + 1 ∧
        (lookupTable table pr.1).isSome = true ∧ pr.1 ∈ res.2.1 ∧ pr.1 ∉ vis)) ∧
      (∀ pr ∈ nq, pr ∈ res.2.2.2) ∧
      (∀ m ∈ ms, ∀ u s', applyMoveInPlace s0 m = some (GameResult.ongoing, u, s') →
        canonicalize (encodeState s') ∈ res.2.1) := by
  intro ms
  induction ms with
  | nil =>
    intro _ vis uns nq res hfold
    simp only [List.foldl_nil] at hfold
    have hres := Option.some.inj hfold
    subst hres
    exact ⟨fun x hx => hx, fun x hx => Or.inl hx, fun pr hpr => Or.inl hpr,
      fun pr hpr => hpr, fun pr hpr => Or.inl hpr, fun pr hpr => hpr,
      fun m hm => absurd hm (List.not_mem_nil m)⟩
  | cons m ms ih =>
    intro hms vis uns nq res hfold
    have hm : m ∈ generateMoves s0 := hms m (List.mem_cons_self _ _)
    have hms' : ∀ m' ∈ ms, m' ∈ generateMoves s0 :=
      fun m' hm' => hms m' (List.mem_cons_of_mem _ hm')
    simp only [List.foldl_cons] at hfold
    rcases happ : applyMoveInPlace s0 m with _ | ⟨result, undo, st'⟩
    · rw [enumerateStep_none_apply table dep s0 vis uns nq m happ, enumerateFold_none]
        at hfold
      exact absurd hfold (by simp)
    · have hundo : undoMoveInPlace st' undo = s0 := apply_undo_eq s0 m hm result undo st' happ
      by_cases hr : result = GameResult.ongoing
      · subst hr
        have hcs : canonicalStep e (canonicalize (encodeState st')) :=
          ⟨s0, m, undo, st', hdec, hm, happ, rfl⟩
        by_cases hv : vis.contains (canonicalize (encodeState st')) = true
        · rw [enumerateStep_seen table dep s0 vis uns nq m undo st' happ hv, hundo] at hfold
          obtain ⟨c2, c3, c4, c5, c6, c7, c8⟩ := ih hms' vis uns nq res hfold
          have hvm : canonicalize (encodeState st') ∈ vis := by
            simpa [List.contains, List.elem_iff] using hv
          refine ⟨c2, c3, c4, c5, c6, c7, ?_⟩
          intro m' hm' u s' happ'
          rcases List.mem_cons.mp hm' with rfl | hm'2
          · rw [happ] at happ'
            have h3 := Option.some.inj happ'
            simp only [Prod.mk.injEq] at h3
            rw [← h3.2.2]
            exact c2 _ hvm
          · exact c8 m' hm'2 u s' happ'
        · have hvf : vis.contains (canonicalize (encodeState st')) = false := by
            rcases h : vis.contains (canonicalize (encodeState st')) with _ | _
            · rfl
            · exact absurd h hv
          have hvm : canonicalize (encodeState st') ∉ vis := by
            intro hc
            have hc2 : vis.contains (canonicalize (encodeState st')) = true := by
              simpa [List.contains, List.elem_iff] using hc
            rw [hc2] at hvf
            exact Bool.noConfusion hvf
          by_cases ht : (lookupTable table (canonicalize (encodeState st'))).isSome = true
          · rw [enumerateStep_queued table dep s0 vis uns nq m undo st' happ hvf ht, hundo]
              at hfold
            obtain ⟨c2, c3, c4, c5, c6, c7, c8⟩ := ih hms'
              (vis ++ [canonicalize (encodeState st')]) uns
              (nq ++ [(canonicalize (encodeState st'), dep + 1)]) res hfold
            have hchildres : canonicalize (encodeState st') ∈ res.2.1 := c2 _ (by simp)
            have hqres : (canonicalize (encodeState st'), dep + 1) ∈ res.2.2.2 :=
              c7 _ (by simp)
            refine ⟨?_, ?_, ?_, c5, ?_, ?_, ?_⟩
            · intro x hx
              exact c2 x (List.mem_append_left _ hx)
            · intro x hx
              rcases c3 x hx with hx2 | ⟨hcsx, hnx, himp1, himp2⟩
              · rcases List.mem_append.mp hx2 with h | h
                · exact Or.inl h
                · have hxc : x = canonicalize (encodeState st') := by simpa using h
                  subst hxc
                  refine Or.inr ⟨hcs, hvm, fun _ => hqres, fun hn => ?_⟩
                  rw [hn] at ht
                  exact absurd ht (by simp)
              · exact Or.inr ⟨hcsx, fun hc => hnx (List.mem_append_left _ hc), himp1, himp2⟩
            · intro pr hpr
              rcases c4 pr hpr with h | ⟨a, b, c, d⟩
              · exact Or.inl h
              · exact Or.inr ⟨a, b, c, fun hc => d (List.mem_append_left _ hc)⟩
            · intro pr hpr
              rcases c6 pr hpr with h | ⟨a, b, c, d, f⟩
              · rcases List.mem_append.mp h with h2 | h2
                · exact Or.inl h2
                · have hprc : pr = (canonicalize (encodeState st'), dep + 1) := by
                    simpa using h2
                  subst hprc
                  exact Or.inr ⟨hcs, rfl, ht, hchildres, hvm⟩
              · exact Or.inr ⟨a, b, c, d, fun hc => f (List.mem_append_left _ hc)⟩
            · intro pr hpr
              exact c7 pr (List.mem_append_left _ hpr)
            · intro m' hm' u s' happ'
              rcases List.mem_cons.mp hm' with rfl | hm'2
              · rw [happ] at happ'
                have h3 := Option.some.inj happ'
                simp only [Prod.mk.injEq] at h3
                rw [← h3.2.2]
                exact hchildres
              · exact c8 m' hm'2 u s' happ'
          · have htn : lookupTable table (canonicalize (encodeState st')) = none := by
              rcases hl : lookupTable table (canonicalize (encodeState st')) with _ | v
              · rfl
              · rw [hl] at ht
                exact absurd rfl ht
            rw [enumerateStep_fresh table dep s0 vis uns nq m undo st' happ hvf htn, hundo]
              at hfold
            obtain ⟨c2, c3, c4, c5, c6, c7, c8⟩ := ih hms'
              (vis ++ [canonicalize (encodeState st')])
              (uns ++ [(canonicalize (encodeState st'), dep + 1)]) nq res hfold
            have hchildres : canonicalize (encodeState st') ∈ res.2.1 := c2 _ (by simp)
            have hures : (canonicalize (encodeState st'), dep + 1) ∈ res.2.2.1 :=
              c5 _ (by simp)
            refine ⟨?_, ?_, ?_, ?_, ?_, c7, ?_⟩
            · intro x hx
              exact c2 x (List.mem_append_left _ hx)
            · intro x hx
              rcases c3 x hx with hx2 | ⟨hcsx, hnx, himp1, himp2⟩
              · rcases List.mem_append.mp hx2 with h | h
                · exact Or.inl h
                · have hxc : x = canonicalize (encodeState st') := by simpa using h
                  subst hxc
                  refine Or.inr ⟨hcs, hvm, fun hs => ?_, fun _ => hures⟩
                  rw [htn] at hs
                  exact absurd hs (by simp)
              · exact Or.inr ⟨hcsx, fun hc => hnx (List.mem_append_left _ hc), himp1, himp2⟩
            · intro pr hpr
              rcases c4 pr hpr with h | ⟨a, b, c, d⟩
              · rcases List.mem_append.mp h with h2 | h2
                · exact Or.inl h2
                · have hprc : pr = (canonicalize (encodeState st'), dep + 1) := by
                    simpa using h2
                  subst hprc
                  exact Or.inr ⟨hcs, rfl, htn, hvm⟩
              · exact Or.inr ⟨a, b, c, fun hc => d (List.mem_append_left _ hc)⟩
            · intro pr hpr
              exact c5 pr (List.mem_append_left _ hpr)
            · intro pr hpr
              rcases c6 pr hpr with h | ⟨a, b, c, d, f⟩
              · exact Or.inl h
              · exact Or.inr ⟨a, b, c, d, fun hc => f (List.mem_append_left _ hc)⟩
            · intro m' hm' u s' happ'
              rcases List.mem_cons.mp hm' with rfl | hm'2
              · rw [happ] at happ'
                have h3 := Option.some.inj happ'
                simp only [Prod.mk.injEq] at h3
                rw [← h3.2.2]
                exact hchildres
              · exact c8 m' hm'2 u s' happ'
      · rw [enumerateStep_not_ongoing table dep s0 vis uns nq m result undo st' happ hr,
          hundo] at hfold
        obtain ⟨c2, c3, c4, c5, c6, c7, c8⟩ := ih hms' vis uns nq res hfold
        refine ⟨c2, c3, c4, c5, c6, c7, ?_⟩
        intro m' hm' u s' happ'
        rcases List.mem_cons.mp hm' with rfl | hm'2
        · rw [happ] at happ'
          have h3 := Option.some.inj happ'
          simp only [Prod.mk.injEq] at h3
          exact absurd h3.1 hr
        · exact c8 m' hm'2 u s' happ'

/-- `enumerateNode` in terms of `canonicalStep`: what the visited list,
the frontier and the queue additions of one processed node contain. -/
theorem enumerateNode_spec (table : Table) (visited : List Nat) (unsolved : List (Nat × Nat))
    (e dep : Nat) (vis' : List Nat) (uns' newQ : List (Nat × Nat))
    (h : enumerateNode table visited unsolved e dep = some (vis', uns', newQ)) :
    (∀ x ∈ visited, x ∈ vis') ∧
    (∀ x ∈ vis', x ∈ visited ∨ (canonicalStep e x ∧ x ∉ visited ∧
      ((lookupTable table x).isSome = true → (x, dep + 1) ∈ newQ) ∧
      (lookupTable table x = none → (x, dep + 1) ∈ uns'))) ∧
    (∀ pr ∈ uns', pr ∈ unsolved ∨ (canonicalStep e pr.1 ∧ pr.2 = dep + 1 ∧
      lookupTable table pr.1 = none ∧ pr.1 ∉ visited)) ∧
    (∀ pr ∈ unsolved, pr ∈ uns') ∧
    (∀ pr ∈ newQ, canonicalStep e pr.1 ∧ pr.2 = dep + 1 ∧
      (lookupTable table pr.1).isSome = true ∧ pr.1 ∈ vis' ∧ pr.1 ∉ visited) ∧
    (∀ y, canonicalStep e y → y ∈ vis') := by
  unfold enumerateNode at h
  rcases hdec : decodeState e with _ | s0
  · rw [hdec] at h
    exact Option.noConfusion h
  · rw [hdec] at h
    have h2 : ((generateMoves s0).foldl (enumerateStep table dep)
        (some (s0, visited, unsolved, []))).map
        (fun a => match a with | (_, vis, uns, newQ) => (vis, uns, newQ)) =
        some (vis', uns', newQ) := h
    rcases hfold : (generateMoves s0).foldl (enumerateStep table dep)
        (some (s0, visited, unsolved, [])) with _ | res
    · rw [hfold] at h2
      exact Option.noConfusion h2
    · rw [hfold] at h2
      simp only [Option.map_some'] at h2
      obtain ⟨stres, visres, unsres, nqres⟩ := res
      have h8 : (visres, unsres, nqres) = (vis', uns', newQ) := Option.some.inj h2
      simp only [Prod.mk.injEq] at h8
      obtain ⟨h3, h4, h5⟩ := h8
      subst h3
      subst h4
      subst h5
      obtain ⟨c2, c3, c4, c5, c6, c7, c8⟩ := enumerateFold_spec table dep e s0 hdec
        (generateMoves s0) (fun _ hm => hm) visited unsolved []
        (stres, visres, unsres, nqres) hfold
      refine ⟨c2, c3, c4, c5, ?_, ?_⟩
      · intro pr hpr
        rcases c6 pr hpr with hnil | hnew
        · exact absurd hnil (List.not_mem_nil pr)
        · exact hnew
      · intro y hy
        obtain ⟨s, m, u, s', hdec', hm, happ, hcanon⟩ := hy
        rw [hdec] at hdec'
        have hs := Option.some.inj hdec'
        subst hs
        rw [← hcanon]
        exact c8 m hm u s' happ

/-! ## The BFS loop invariant -/

theorem enumerateLoop_cons (table : Table) (fuel : Nat) (e D : Nat)
    (rest : List (Nat × Nat)) (visited : List Nat) (uns : List (Nat × Nat)) :
    enumerateLoop table (fuel + 1) ((e, D) :: rest) visited uns =
      (enumerateNode table visited uns e D).bind fun a =>
        match a with
        | (vis, uns2, newQ) => enumerateLoop table fuel (rest ++ newQ) vis uns2 := rfl

theorem loopInv_shift (table : Table) (R : Nat) (B : List (Nat × Nat)) (D : Nat)
    (visited : List Nat) (uns : List (Nat × Nat)) (P : List Nat)
    (h : LoopInv table R [] B D visited uns P) :
    LoopInv table R B [] (D + 1) visited uns P := by
  obtain ⟨hA, hB, hR, hJ2, hJ3, hJ4, hJ5, hJ9, hJ7⟩ := h
  refine ⟨hB, ?_, hR, ?_, ?_, hJ4, ?_, ?_, hJ7⟩
  · intro pr hpr
    exact absurd hpr (List.not_mem_nil pr)
  · intro pr hpr
    exact hJ2 pr (by simpa using hpr)
  · intro pr hpr n hpath
    exact hJ3 pr (by simpa using hpr) n hpath
  · intro x hx htq
    rcases hJ5 x hx htq with hP | ⟨dx, hdx⟩
    · exact Or.inl hP
    · exact Or.inr ⟨dx, by simpa using hdx⟩
  · intro x htq m hpath hm
    rcases Nat.lt_or_ge m (D + 1) with hlt | hge
    · rcases hJ9 x htq m hpath (by omega) with hP | ⟨dx, hdx⟩
      · exact Or.inl hP
      · exact Or.inr ⟨dx, by simpa using hdx⟩
    · have hmeq : m = D + 1 := by omega
      subst hmeq
      obtain ⟨p, hpath', hpcond, hpstep⟩ := solvedPathN_unsnoc table D R x hpath
      have hptq : p = R ∨ (lookupTable table p).isSome = true := by
        rcases hpcond with h0 | ht
        · subst h0
          have h2 : R = p := hpath'
          exact Or.inl h2.symm
        · exact Or.inr ht
      rcases hJ9 p hptq D hpath' (le_refl D) with hP | ⟨dp, hdp⟩
      · have hxv : x ∈ visited := hJ4 p hP x hpstep
        rcases hJ5 x hxv htq with h1 | ⟨dx, hdx⟩
        · exact Or.inl h1
        · exact Or.inr ⟨dx, by simpa using hdx⟩
      · have hdpv : dp = D + 1 := hB (p, dp) (by simpa using hdp)
        exact absurd (hJ3 (p, dp) hdp D hpath') (by omega)

theorem loopInv_process (table : Table) (R : Nat) (e : Nat)
    (A' B : List (Nat × Nat)) (D : Nat) (visited : List Nat)
    (uns : List (Nat × Nat)) (P : List Nat)
    (hinv : LoopInv table R ((e, D) :: A') B D visited uns P)
    (vis' : List Nat) (uns' newQ : List (Nat × Nat))
    (hnode : enumerateNode table visited uns e D = some (vis', uns', newQ)) :
    LoopInv table R A' (B ++ newQ) D vis' uns' (P ++ [e]) := by
  obtain ⟨hA, hB, hR, hJ2, hJ3, hJ4, hJ5, hJ9, hJ7⟩ := hinv
  obtain ⟨n2, n3, n4, n5, n6, n7⟩ :=
    enumerateNode_spec table visited uns e D vis' uns' newQ hnode
  obtain ⟨hepath, hecond, hevis⟩ := hJ2 (e, D) (by simp)
  have hkey : ∀ c, c ∉ visited → ∀ n, SolvedPathN table n R c → D + 1 ≤ n := by
    intro c hcv n hpath
    by_contra hlt
    push_neg at hlt
    rcases n with _ | m
    · have hc : R = c := hpath
      rw [← hc] at hcv
      exact hcv hR
    · obtain ⟨p, hpath', hpcond, hpstep⟩ := solvedPathN_unsnoc table m R c hpath
      have hptq : p = R ∨ (lookupTable table p).isSome = true := by
        rcases hpcond with h0 | ht
        · subst h0
          have h2 : R = p := hpath'
          exact Or.inl h2.symm
        · exact Or.inr ht
      rcases hJ9 p hptq m hpath' (by omega) with hP | ⟨dp, hdp⟩
      · exact hcv (hJ4 p hP c hpstep)
      · have hdple := hJ3 (p, dp) hdp m hpath'
        have hdpval : dp = D ∨ dp = D + 1 := by
          rcases List.mem_append.mp hdp with h | h
          · exact Or.inl (hA (p, dp) h)
          · exact Or.inr (hB (p, dp) h)
        omega
  refine ⟨?_, ?_, ?_, ?_, ?_, ?_, ?_, ?_, ?_⟩
  · intro pr hpr
    exact hA pr (List.mem_cons_of_mem _ hpr)
  · intro pr hpr
    rcases List.mem_append.mp hpr with h | h
    · exact hB pr h
    · exact (n6 pr h).2.1
  · exact n2 R hR
  · intro pr hpr
    rcases List.mem_append.mp hpr with h | h
    · obtain ⟨h1, h2, h3⟩ :=
        hJ2 pr (List.mem_append_left B (List.mem_cons_of_mem (e, D) h))
      exact ⟨h1, h2, n2 _ h3⟩
    · rcases List.mem_append.mp h with h2 | h2
      · obtain ⟨h3, h4, h5⟩ := hJ2 pr (List.mem_append_right _ h2)
        exact ⟨h3, h4, n2 _ h5⟩
      · obtain ⟨hstep, hdep, htab, hvis, hfresh⟩ := n6 pr h2
        refine ⟨?_, Or.inr htab, hvis⟩
        rw [hdep]
        exact solvedPathN_snoc table D R e pr.1 hepath hecond hstep
  · intro pr hpr n hpath
    rcases List.mem_append.mp hpr with h | h
    · exact hJ3 pr (List.mem_append_left B (List.mem_cons_of_mem (e, D) h)) n hpath
    · rcases List.mem_append.mp h with h2 | h2
      · exact hJ3 pr (List.mem_append_right _ h2) n hpath
      · obtain ⟨hstep, hdep, htab, hvis, hfresh⟩ := n6 pr h2
        rw [hdep]
        exact hkey pr.1 hfresh n hpath
  · intro p hp y hy
    rcases List.mem_append.mp hp with h | h
    · exact n2 _ (hJ4 p h y hy)
    · have hpe : p = e := by simpa using h
      subst hpe
      exact n7 y hy
  · intro x hx htq
    rcases n3 x hx with hxv | ⟨hstep, hfresh, himpS, himpN⟩
    · rcases hJ5 x hxv htq with hP | ⟨dx, hdx⟩
      · exact Or.inl (List.mem_append_left _ hP)
      · rcases List.mem_append.mp hdx with h | h
        · rcases List.mem_cons.mp h with h2 | h2
          · have hxe : x = e := congrArg Prod.fst h2
            exact Or.inl (List.mem_append_right _ (by simp [hxe]))
          · exact Or.inr ⟨dx, List.mem_append_left _ h2⟩
        · exact Or.inr ⟨dx, List.mem_append_right _ (List.mem_append_left _ h)⟩
    · rcases htq with hxR | hxtab
      · subst hxR
        exact absurd hR hfresh
      · exact Or.inr ⟨D + 1,
          List.mem_append_right A' (List.mem_append_right B (himpS hxtab))⟩
  · intro x htq m hpath hm
    rcases hJ9 x htq m hpath hm with hP | ⟨dx, hdx⟩
    · exact Or.inl (List.mem_append_left _ hP)
    · rcases List.mem_append.mp hdx with h | h
      · rcases List.mem_cons.mp h with h2 | h2
        · have hxe : x = e := congrArg Prod.fst h2
          exact Or.inl (List.mem_append_right _ (by simp [hxe]))
        · exact Or.inr ⟨dx, List.mem_append_left _ h2⟩
      · exact Or.inr ⟨dx, List.mem_append_right _ (List.mem_append_left _ h)⟩
  · intro pr hpr
    rcases n4 pr hpr with h | ⟨hstep, hdep, htab, hfresh⟩
    · exact hJ7 pr h
    · refine ⟨?_, htab, ?_⟩
      · rw [hdep]
        exact solvedPathN_snoc table D R e pr.1 hepath hecond hstep
      · intro n hpath
        rw [hdep]
        exact hkey pr.1 hfresh n hpath

theorem enumerateLoop_spec_step (table : Table) (R : Nat) (fuel : Nat)
    (ih : ∀ (A B : List (Nat × Nat)) (D : Nat) (visited : List Nat)
      (uns front : List (Nat × Nat)) (P : List Nat),
      LoopInv table R A B D visited uns P →
      enumerateLoop table fuel (A ++ B) visited uns = some front →
      GoodFrontier table R front)
    (e : Nat) (A' B : List (Nat × Nat)) (D : Nat) (visited : List Nat)
    (uns front : List (Nat × Nat)) (P : List Nat)
    (hinv : LoopInv table R ((e, D) :: A') B D visited uns P)
    (hloop : enumerateLoop table (fuel + 1) (((e, D) :: A') ++ B) visited uns =
      some front) :
    GoodFrontier table R front := by
  rw [List.cons_append, enumerateLoop_cons] at hloop
  rcases hnode : enumerateNode table visited uns e D with _ | ⟨⟨vis', uns', newQ⟩⟩
  · rw [hnode] at hloop
    exact Option.noConfusion
      (show (none : Option (List (Nat × Nat))) = some front from hloop)
  · rw [hnode] at hloop
    have hloop3 : enumerateLoop table fuel ((A' ++ B) ++ newQ) vis' uns' =
        some front := hloop
    have hinv' := loopInv_process table R e A' B D visited uns P hinv vis' uns' newQ hnode
    rw [List.append_assoc] at hloop3
    exact ih A' (B ++ newQ) D vis' uns' front (P ++ [e]) hinv' hloop3

theorem enumerateLoop_spec (table : Table) (R : Nat) :
    ∀ (fuel : Nat) (A B : List (Nat × Nat)) (D : Nat) (visited : List Nat)
      (uns front : List (Nat × Nat)) (P : List Nat),
      LoopInv table R A B D visited uns P →
      enumerateLoop table fuel (A ++ B) visited uns = some front →
      GoodFrontier table R front := by
  intro fuel
  induction fuel with
  | zero =>
    intro A B D visited uns front P hinv hloop
    rcases A with _ | ⟨pr, A'⟩
    · rcases B with _ | ⟨pr, B'⟩
      · obtain ⟨_, _, _, _, _, _, _, _, hJ7⟩ := hinv
        have h2 : some uns = some front := hloop
        have h3 := Option.some.inj h2
        subst h3
        exact hJ7
      · exact Option.noConfusion
          (show (none : Option (List (Nat × Nat))) = some front from hloop)
    · exact Option.noConfusion
        (show (none : Option (List (Nat × Nat))) = some front from hloop)
  | succ fuel ih =>
    intro A B D visited uns front P hinv hloop
    rcases A with _ | ⟨⟨e, d⟩, A'⟩
    · rcases B with _ | ⟨⟨e, d⟩, B'⟩
      · obtain ⟨_, _, _, _, _, _, _, _, hJ7⟩ := hinv
        have h2 : some uns = some front := hloop
        have h3 := Option.some.inj h2
        subst h3
        exact hJ7
      · have hinv2 := hinv
        obtain ⟨hA, hB, hR, hJ2, hJ3, hJ4, hJ5, hJ9, hJ7⟩ := hinv2
        have hd : d = D + 1 := hB (e, d) (List.mem_cons_self _ _)
        subst hd
        have hinv' := loopInv_shift table R ((e, D + 1) :: B') D visited uns P hinv
        have hloop' : enumerateLoop table (fuel + 1)
            (((e, D + 1) :: B') ++ []) visited uns = some front := by
          rw [List.append_nil]
          exact hloop
        exact enumerateLoop_spec_step table R fuel ih e B' [] (D + 1) visited uns
          front P hinv' hloop'
    · have hinv2 := hinv
      obtain ⟨hA, _, _, _, _, _, _, _, _⟩ := hinv2
      have hd : d = D := hA (e, d) (List.mem_cons_self _ _)
      subst hd
      exact enumerateLoop_spec_step table R fuel ih e A' B d visited uns
        front P hinv hloop

/-- C8 (amended): in a completed run of the BFS enumerator, every frontier
entry (c, d) records an unsolved canonical key c, and d is the minimum
number of moves from the root to c along paths whose strictly interior
positions are all present in the transposition table — not the minimum
over arbitrary move paths, which can be shorter. -/
theorem bfs_depth_minimal_over_solved (table : Table) (fuel : Nat)
    (front : List (Nat × Nat)) (c d : Nat)
    (h : enumerateAllUnsolvedWithDepth table fuel = some front)
    (hmem : (c, d) ∈ front) :
    SolvedPathN table d (canonicalize (encodeState GameState.init)) c ∧
      lookupTable table c = none ∧
      ∀ n, SolvedPathN table n (canonicalize (encodeState GameState.init)) c →
        d ≤ n := by
  have hloop : enumerateLoop table fuel
      ([(canonicalize (encodeState GameState.init), 0)] ++ [])
      [canonicalize (encodeState GameState.init)] [] = some front := by
    rw [List.append_nil]
    exact h
  have hinv : LoopInv table (canonicalize (encodeState GameState.init))
      [(canonicalize (encodeState GameState.init), 0)] [] 0
      [canonicalize (encodeState GameState.init)] [] [] := by
    refine ⟨?_, ?_, ?_, ?_, ?_, ?_, ?_, ?_, ?_⟩
    · intro pr hpr
      have hpr2 : pr = (canonicalize (encodeState GameState.init), 0) := by
        simpa using hpr
      rw [hpr2]
    · intro pr hpr
      exact absurd hpr (List.not_mem_nil pr)
    · exact List.mem_singleton_self _
    · intro pr hpr
      have hpr2 : pr = (canonicalize (encodeState GameState.init), 0) := by
        simpa using hpr
      rw [hpr2]
      exact ⟨rfl, Or.inl rfl, List.mem_singleton_self _⟩
    · intro pr hpr n hpath
      have hpr2 : pr = (canonicalize (encodeState GameState.init), 0) := by
        simpa using hpr
      rw [hpr2]
      exact Nat.zero_le n
    · intro p hp
      exact absurd hp (List.not_mem_nil p)
    · intro x hx htq
      have hx2 : x = canonicalize (encodeState GameState.init) := by simpa using hx
      exact Or.inr ⟨0, by simp [hx2]⟩
    · intro x htq m hpath hm
      have hm0 : m = 0 := Nat.le_zero.mp hm
      subst hm0
      have hx : canonicalize (encodeState GameState.init) = x := hpath
      exact Or.inr ⟨0, by simp [← hx]⟩
    · intro pr hpr
      exact absurd hpr (List.not_mem_nil pr)
  have hgood := enumerateLoop_spec table (canonicalize (encodeState GameState.init))
    fuel [(canonicalize (encodeState GameState.init), 0)] [] 0
    [canonicalize (encodeState GameState.init)] [] front [] hinv hloop
  exact hgood (c, d) hmem

theorem bfs_depth_minimal_over_solved_witness :
    SolvedPathN [] 1 (canonicalize (encodeState GameState.init)) 18014398526259200 ∧
      lookupTable [] 18014398526259200 = none ∧
      ∀ n, SolvedPathN [] n (canonicalize (encodeState GameState.init))
        18014398526259200 → 1 ≤ n :=
  bfs_depth_minimal_over_solved [] 1 bfsEmptyFrontier 18014398526259200 1
    (by decide) (by decide)

end Gobblet
